import Mathlib

/-!
Verification of the `fsl::Skiplist` container (src/skiplist/Skiplist.hpp).

The skiplist is a stack of doubly linked lists.  Every element owns one
*column* of vertically linked nodes whose bottom node sits in the bottom
list; the list at level `l` (1-based, bottom = level 1) contains exactly the
columns whose height is at least `l`, in bottom-list order, behind a dummy
head column of full height.  This file embeds the container as the bottom
list of columns (entry plus column height) together with the scalar fields
of the C++ class (`m_levelCount`, `m_count`, `m_countMin`, `m_countMax`,
`m_balanced`) and a stream of pending `chooseLevel` draws standing for the
pseudo-random source (`m_rng`/`m_distribution`).  The template parameters
are instantiated at `KEY = VAL = int` with `COMPARE = std::less`, the
instantiation used by the repository's tests; `MULTIMAP` is passed around
as an explicit boolean.  Horizontal traversals of an upper list become
scans of the column list that skip columns shorter than the current level,
and a node of the C++ graph is identified by the index of its column in the
bottom list.
-/

namespace Skiplist

/-- Key type of the instantiated container (`KEY = int`). -/
abbrev Key := Int

/-- Mapped type of the instantiated container (`VAL = int`). -/
abbrev Val := Int

/-- `SLPair<KEY, VAL>`: the key/value pair owned by a column. -/
abbrev Entry := Key × Val

/-- One column of the node graph: the entry shared by all nodes of the
column (`Node::KeyValPair`) and the column height, i.e. the number of
vertically linked nodes (1 = bottom list only). -/
structure Col where
  entry : Entry
  h : Nat
deriving Repr, DecidableEq, Inhabited

/-- Key of a column (`Node::KeyValPair->first`). -/
def Col.key (c : Col) : Key := c.entry.1

/-- Value of a column (`Node::KeyValPair->second`). -/
def Col.val (c : Col) : Val := c.entry.2

/-- The comparator `m_keyCompare` at the test instantiation `std::less<int>`. -/
def cmpLt (a b : Key) : Bool := decide (a < b)

/-- The container state: `cols` is the bottom list in order, one `Col` per
element; the remaining fields are the scalar members of `fsl::Skiplist`.
`rng` is the stream of values the successive `chooseLevel()` calls will
draw, each entry standing for `floor(log(random)/log(0.5)) + 1` (a large
entry also covers the `random == 0` case, which the code maps to the
current level count). -/
structure SL where
  cols : List Col
  levelCount : Nat
  count : Nat
  countMin : Nat
  countMax : Nat
  balanced : Bool
  rng : List Nat
deriving Repr, DecidableEq

/-- A default-constructed `Skiplist` seeded with the draw stream `g`
(the C++ default constructor seeds `m_rng` from the clock; all other
members use their default initializers). -/
def initSL (g : List Nat) : SL :=
  { cols := [], levelCount := 0, count := 0, countMin := 0, countMax := 0,
    balanced := true, rng := g }

/-- Value `updateMinMax` assigns to `m_countMin`: `pow(2.0, m_levelCount - 1)`
truncated to an integer, which is `0` when `m_levelCount = 0` (the double
`0.5` truncates to `0`). -/
def countMinFor (L : Nat) : Nat := if L = 0 then 0 else 2 ^ (L - 1)

/-- Value `updateMinMax` assigns to `m_countMax`: `pow(2.0, m_levelCount) - 1`. -/
def countMaxFor (L : Nat) : Nat := 2 ^ L - 1

/-- `updateMinMax()`: recompute both thresholds from `m_levelCount`. -/
def updateMinMax (s : SL) : SL :=
  { s with countMin := countMinFor s.levelCount, countMax := countMaxFor s.levelCount }

/-- `chooseLevel()`: consume one draw from the random stream and clamp it to
`m_levelCount` (`if (level > m_levelCount) level = m_levelCount`). -/
def chooseLevel (s : SL) : SL × Nat :=
  ({ s with rng := s.rng.tail }, min (s.rng.headD 1) s.levelCount)

/-- `addLevel()`: one more level, a fresh dummy head on top (implicit in
this representation), and recomputed thresholds. -/
def addLevel (s : SL) : SL :=
  updateMinMax { s with levelCount := s.levelCount + 1 }

/-- `removeLevel()`: drop the top list, destroying every node in it, and
recompute the thresholds.  A column that reached the old top level loses
its top node, so heights are capped at the new level count. -/
def removeLevel (s : SL) : SL :=
  updateMinMax
    { s with
      levelCount := s.levelCount - 1,
      cols := s.cols.map (fun c => ⟨c.entry, min c.h (s.levelCount - 1)⟩) }

/-- `clear()`: swap with a default-constructed instance but keep `m_rng`
and `m_distribution`. -/
def clear (s : SL) : SL :=
  { initSL s.rng with rng := s.rng }

@[simp] theorem updateMinMax_cols (s : SL) : (updateMinMax s).cols = s.cols := rfl

@[simp] theorem updateMinMax_levelCount (s : SL) :
    (updateMinMax s).levelCount = s.levelCount := rfl

@[simp] theorem updateMinMax_count (s : SL) : (updateMinMax s).count = s.count := rfl

@[simp] theorem updateMinMax_balanced (s : SL) :
    (updateMinMax s).balanced = s.balanced := rfl

@[simp] theorem updateMinMax_rng (s : SL) : (updateMinMax s).rng = s.rng := rfl

@[simp] theorem updateMinMax_countMin (s : SL) :
    (updateMinMax s).countMin = countMinFor s.levelCount := rfl

@[simp] theorem updateMinMax_countMax (s : SL) :
    (updateMinMax s).countMax = countMaxFor s.levelCount := rfl

@[simp] theorem addLevel_cols (s : SL) : (addLevel s).cols = s.cols := rfl

@[simp] theorem addLevel_levelCount (s : SL) :
    (addLevel s).levelCount = s.levelCount + 1 := rfl

@[simp] theorem addLevel_count (s : SL) : (addLevel s).count = s.count := rfl

@[simp] theorem addLevel_balanced (s : SL) : (addLevel s).balanced = s.balanced := rfl

@[simp] theorem addLevel_rng (s : SL) : (addLevel s).rng = s.rng := rfl

@[simp] theorem addLevel_countMin (s : SL) :
    (addLevel s).countMin = countMinFor (s.levelCount + 1) := rfl

@[simp] theorem addLevel_countMax (s : SL) :
    (addLevel s).countMax = countMaxFor (s.levelCount + 1) := rfl

@[simp] theorem removeLevel_levelCount (s : SL) :
    (removeLevel s).levelCount = s.levelCount - 1 := rfl

@[simp] theorem removeLevel_count (s : SL) : (removeLevel s).count = s.count := rfl

@[simp] theorem removeLevel_balanced (s : SL) :
    (removeLevel s).balanced = s.balanced := rfl

@[simp] theorem removeLevel_rng (s : SL) : (removeLevel s).rng = s.rng := rfl

@[simp] theorem removeLevel_countMin (s : SL) :
    (removeLevel s).countMin = countMinFor (s.levelCount - 1) := rfl

@[simp] theorem removeLevel_countMax (s : SL) :
    (removeLevel s).countMax = countMaxFor (s.levelCount - 1) := rfl

theorem removeLevel_cols (s : SL) :
    (removeLevel s).cols =
      s.cols.map (fun c => ⟨c.entry, min c.h (s.levelCount - 1)⟩) := rfl

@[simp] theorem removeLevel_cols_length (s : SL) :
    (removeLevel s).cols.length = s.cols.length := by
  rw [removeLevel_cols, List.length_map]

/-- Index of the first column at position `start` or later that reaches
level `l`, i.e. the node `head->Next` reaches by skipping the columns that
do not appear in the level-`l` list. -/
def nextFrom (cols : List Col) (l : Nat) (start : Nat) : Option Nat :=
  if start < cols.length then
    if l ≤ (cols.getD start default).h then some start
    else nextFrom cols l (start + 1)
  else none
termination_by cols.length - start

/-- Bounds of a successful `nextFrom` scan. -/
theorem nextFrom_some_bounds (cols : List Col) (l : Nat) :
    ∀ start i, nextFrom cols l start = some i → start ≤ i ∧ i < cols.length := by
  intro start
  induction start using nextFrom.induct cols l with
  | case1 start hs hle =>
    intro i h
    rw [nextFrom, if_pos hs, if_pos hle] at h
    simp only [Option.some.injEq] at h
    omega
  | case2 start hs hle ih =>
    intro i h
    rw [nextFrom, if_pos hs, if_neg hle] at h
    have := ih i h; omega
  | case3 start hs =>
    intro i h
    rw [nextFrom, if_neg hs] at h
    exact absurd h (by simp)

/-- The advance loop of the recursive descents at a single level `l`: from
suffix position `start` (the current node is the column `start - 1`, or the
dummy when `start = 0`), advance to the next level-`l` node while it exists
and fails the predicate `p`; return the suffix position at which the
descent moves down (in `insertTopDownRecursive` and the `COMP` overload of
`findRecursive` this is the branch `!next || compare(key,
next->KeyValPair->first)`). -/
def walk (cols : List Col) (l : Nat) (p : Col → Bool) (start : Nat) : Nat :=
  match h : nextFrom cols l start with
  | none => start
  | some i => if p (cols.getD i default) then start else walk cols l p (i + 1)
termination_by cols.length - start
decreasing_by
  have hb := nextFrom_some_bounds cols l start i h
  omega

/-- Unfolding of `walk` when the level scan fails. -/
theorem walk_none {cols : List Col} {l : Nat} {p : Col → Bool} {start : Nat}
    (h : nextFrom cols l start = none) : walk cols l p start = start := by
  rw [walk]
  split <;> simp_all

/-- Unfolding of `walk` when the next node satisfies the predicate. -/
theorem walk_some_stop {cols : List Col} {l : Nat} {p : Col → Bool} {start i : Nat}
    (h : nextFrom cols l start = some i) (hp : p (cols.getD i default) = true) :
    walk cols l p start = start := by
  rw [walk]
  split <;> simp_all

/-- Unfolding of `walk` when the next node fails the predicate. -/
theorem walk_some_adv {cols : List Col} {l : Nat} {p : Col → Bool} {start i : Nat}
    (h : nextFrom cols l start = some i) (hp : p (cols.getD i default) = false) :
    walk cols l p start = walk cols l p (i + 1) := by
  rw [walk]
  split <;> simp_all

/-- The level-by-level part of the recursive descents: starting at level
`l` from suffix position `start`, run the advance loop and move down to the
next level (`head->Down`), until below the bottom list.  Level `0` stands
for the null pointer below the bottom list. -/
def descend (cols : List Col) (p : Col → Bool) : Nat → Nat → Nat
  | 0, start => start
  | l + 1, start => descend cols p l (walk cols (l + 1) p start)

/-- The `COMP` overload of `findRecursive` used by `lower_bound` and
`upper_bound`: descend from the top level (`m_head` is null when
`m_levelCount = 0`), and at the bottom list return the node `next` at the
stopping point, i.e. the first bottom column at or after the final suffix
position, or none past the end. -/
def findRecursiveBy (cols : List Col) (L : Nat) (p : Col → Bool) : Option Nat :=
  if L = 0 then none else nextFrom cols 1 (descend cols p L 0)

/-- `upper_bound(key)`: the `COMP` descent with the ordinary comparator
`m_keyCompare`, returning the index of the resulting bottom node. -/
def upperBound (s : SL) (k : Key) : Option Nat :=
  findRecursiveBy s.cols s.levelCount (fun c => cmpLt k c.key)

/-- `lower_bound(key)`: the `COMP` descent with the reversed predicate
`!m_keyCompare(nodeKey, searchKey)`. -/
def lowerBound (s : SL) (k : Key) : Option Nat :=
  findRecursiveBy s.cols s.levelCount (fun c => !cmpLt c.key k)

/-- The point-query overload of `findRecursive`: at level `l + 1` from
suffix position `start`, if there is no next node or its key is greater
than `k`, go down; if the next node's key is equivalent to `k`, return its
column index; otherwise advance.  Level `0` is the null pointer, returning
not-found. -/
def findRecursive (cols : List Col) (k : Key) : Nat → Nat → Option Nat
  | 0, _ => none
  | l + 1, start =>
    match h : nextFrom cols (l + 1) start with
    | none => findRecursive cols k l start
    | some i =>
      if cmpLt k (cols.getD i default).key then findRecursive cols k l start
      else if !cmpLt (cols.getD i default).key k then some i
      else findRecursive cols k (l + 1) (i + 1)
termination_by l start => (l, cols.length - start)
decreasing_by
  · exact Prod.Lex.left _ _ (Nat.lt_succ_self l)
  · exact Prod.Lex.left _ _ (Nat.lt_succ_self l)
  · have hb := nextFrom_some_bounds cols (l + 1) start i h
    exact Prod.Lex.right _ (by omega)

/-- `find(key)`: the point query from `m_head`; the result is the column of
the returned node (the C++ `find` then walks `Down` to the bottom node of
that same column). -/
def findKey (s : SL) (k : Key) : Option Nat :=
  findRecursive s.cols k s.levelCount 0

/-- `contains(key)`: `findRecursive(m_head, key) != nullptr`. -/
def contains (s : SL) (k : Key) : Bool :=
  (findKey s k).isSome

/-- `at(key)`: point query, then either `throw std::out_of_range("Invalid
Skiplist<KEY, VAL> key.")` — modelled as the recoverable error value — or
the mapped value of the found node. -/
def atKey (s : SL) (k : Key) : Except String Val :=
  match findKey s k with
  | none => Except.error "Invalid Skiplist key."
  | some i => Except.ok (s.cols.getD i default).val

/-- `insertTopDown(key, compare, getAllocatedPair)`: draw a level, add a
level when `m_count + 1 > m_countMax` (overriding the drawn level with the
new level count), and run `insertTopDownRecursive` from `m_head`.  The
recursion's net effect in the column representation: the descent with
predicate `compare k _` determines the bottom insertion position `idx`
(new nodes are allocated at the stopping point of every level at or below
the target level, so the new column's height is the target level).  On the
bottom list a map checks the node to the left (`head`): insertion succeeds
iff `MULTIMAP`, or that node is the dummy (`!head->Prev`), or
`compare(head->KeyValPair->first, key)`.  On success the column is zipped
in, `m_count` grows and `m_balanced` is cleared; on failure the fresh
nodes are torn down, the blocking bottom node `idx - 1` is returned, and a
level is removed when `m_count < m_countMin`. -/
def insertTopDown (s : SL) (mm : Bool) (compare : Key → Key → Bool) (k : Key) (v : Val) :
    SL × Nat × Bool :=
  let c1 := chooseLevel s
  let s2 := if c1.1.count + 1 > c1.1.countMax then addLevel c1.1 else c1.1
  let lvl := if c1.1.count + 1 > c1.1.countMax then s2.levelCount else c1.2
  let idx := descend s2.cols (fun c => compare k c.key) s2.levelCount 0
  if mm || idx == 0 || compare (s2.cols.getD (idx - 1) default).key k then
    ({ s2 with
        cols := s2.cols.insertIdx idx ⟨(k, v), lvl⟩,
        count := s2.count + 1,
        balanced := false }, idx, true)
  else
    ((if s2.count < s2.countMin then removeLevel s2 else s2), idx - 1, false)

/-- `insert(keyValPair)` (and `emplace`): `insertTopDown` with the ordinary
comparator `m_keyCompare`.  Returns the new state, the index of the
inserted (or blocking) bottom node, and the success flag of the returned
`std::pair<iterator, bool>`. -/
def insert (s : SL) (mm : Bool) (k : Key) (v : Val) : SL × Nat × Bool :=
  insertTopDown s mm (fun a b => cmpLt a b) k v

/-- `insertBottomUp(previous, pKeyValPair)`: `pos` is the bottom index the
new node is spliced at, i.e. `previous` is the column `pos - 1` (the dummy
head when `pos = 0`).  Increments `m_count`, clears `m_balanced`, draws a
level (adding a level when `m_count > m_countMax`, in which case the drawn
level is overridden), splices the node after `previous` and stacks
`level - 1` nodes above it via `insertAbove`. -/
def insertBottomUp (s : SL) (pos : Nat) (k : Key) (v : Val) : SL × Nat :=
  let s0 := { s with count := s.count + 1, balanced := false }
  let c1 := chooseLevel s0
  let s2 := if c1.1.count > c1.1.countMax then addLevel c1.1 else c1.1
  let lvl := if c1.1.count > c1.1.countMax then s2.levelCount else c1.2
  ({ s2 with cols := s2.cols.insertIdx pos ⟨(k, v), lvl⟩ }, pos)

/-- `insertWithHintMultimap(hint, key, getAllocatedPair)`: `b` is the hint
node (none = end iterator), `a = b->Prev` (none when that is the dummy) or
`m_tail` when `b` is end (none when the container is empty).  A hint with
`b->key < key` falls back to `insertTopDown` with the negated comparator
(lower-bound insertion); a hint with `key < a->key` falls back with the
ordinary comparator (upper-bound insertion); otherwise the hint is good
and the node is spliced between `a` and `b` by `insertBottomUp`. -/
def insertWithHintMultimap (s : SL) (hint : Option Nat) (k : Key) (v : Val) : SL × Nat :=
  let aIdx : Option Nat :=
    match hint with
    | some i => if i = 0 then none else some (i - 1)
    | none => if s.count = 0 then none else some (s.count - 1)
  let badForward : Bool :=
    match hint with
    | some i => cmpLt (s.cols.getD i default).key k
    | none => false
  let badBackward : Bool :=
    match aIdx with
    | some j => cmpLt k (s.cols.getD j default).key
    | none => false
  if badForward then
    let r := insertTopDown s true (fun searchKey nodeKey => !cmpLt nodeKey searchKey) k v
    (r.1, r.2.1)
  else if badBackward then
    let r := insertTopDown s true (fun searchKey nodeKey => cmpLt searchKey nodeKey) k v
    (r.1, r.2.1)
  else
    insertBottomUp s (match aIdx with | some j => j + 1 | none => 0) k v

/-- `insertWithHintMap(hint, key, getAllocatedPair)`: with `a`, `b` as in
the multimap overload, a good hint (`a < key < b`, dummies and missing
neighbours passing vacuously) splices via `insertBottomUp`; a wrong hint
falls back to `insertTopDown` with the ordinary comparator; an equivalent
neighbour blocks the insertion and its node is returned unchanged. -/
def insertWithHintMap (s : SL) (hint : Option Nat) (k : Key) (v : Val) : SL × Nat :=
  let aIdx : Option Nat :=
    match hint with
    | some i => if i = 0 then none else some (i - 1)
    | none => if s.count = 0 then none else some (s.count - 1)
  let xLtB : Bool :=
    match hint with
    | some i => cmpLt k (s.cols.getD i default).key
    | none => true
  let aLtX : Bool :=
    match aIdx with
    | some j => cmpLt (s.cols.getD j default).key k
    | none => true
  let xLtA : Bool :=
    match aIdx with
    | some j => cmpLt k (s.cols.getD j default).key
    | none => false
  if xLtB then
    if aLtX then
      insertBottomUp s (match aIdx with | some j => j + 1 | none => 0) k v
    else if xLtA then
      let r := insertTopDown s false (fun a b => cmpLt a b) k v
      (r.1, r.2.1)
    else
      (s, match aIdx with | some j => j | none => 0)
  else if (match hint with | some i => cmpLt (s.cols.getD i default).key k | none => false) then
    let r := insertTopDown s false (fun a b => cmpLt a b) k v
    (r.1, r.2.1)
  else
    (s, hint.getD 0)

/-- Bottom-level pass of `eraseKeyRecursive(toRemove)` for a pivot at
bottom index `i`: walk left unlinking nodes while the left neighbour is
not the dummy and its key is not less than the pivot's
(`!m_pairCompare(*prev, kvPair)`), walk right while the right neighbour's
key is not greater (`!m_pairCompare(kvPair, *next)`), then unlink the
pivot; entries are freed and counted only on this bottom pass.  The passes
at the levels above remove the upper nodes of the same equivalent run, so
in the column representation the run's columns disappear whole.  Returns
the remaining bottom list and the number of entries removed. -/
def eraseKeyRecursive (cols : List Col) (i : Nat) (k : Key) : List Col × Nat :=
  let left := cols.take i
  let right := cols.drop (i + 1)
  let keptLeft := (left.reverse.dropWhile (fun c => !cmpLt c.key k)).reverse
  let keptRight := right.dropWhile (fun c => !cmpLt k c.key)
  (keptLeft ++ keptRight,
    (left.length - keptLeft.length) + (right.length - keptRight.length) + 1)

/-- The `while (m_count < m_countMin) removeLevel();` loop at the end of
`erase(key)`.  The loop ends because `removeLevel` drives `m_countMin` to
`0`; the model recurses on the level count and additionally stops at level
`0`, where the C++ loop could only be entered from a corrupted state. -/
def shrinkLevels (s : SL) : SL :=
  if s.count < s.countMin ∧ 0 < s.levelCount then shrinkLevels (removeLevel s) else s
termination_by s.levelCount
decreasing_by
  simp only [removeLevel, updateMinMax]
  omega

/-- `erase(key)`: locate any node with the key via `findRecursive`; if none,
return `0`; otherwise run `eraseKeyRecursive`, subtract the bottom-list
tally from `m_count`, clear `m_balanced`, and remove levels while
`m_count < m_countMin`.  Returns the new state and the number removed. -/
def erase (s : SL) (k : Key) : SL × Nat :=
  match findRecursive s.cols k s.levelCount 0 with
  | none => (s, 0)
  | some i =>
    let r := eraseKeyRecursive s.cols i k
    (shrinkLevels { s with cols := r.1, count := s.count - r.2, balanced := false }, r.2)

/-- `erase(pos)` for a valid dereferenceable cursor on bottom index `pos`:
`eraseAbove` tears down the column, the bottom node is unlinked and freed,
`m_count` drops by one, `m_balanced` is cleared, and a single level is
removed when `m_count < m_countMin`.  An invalid cursor (the end iterator)
only trips an assertion and returns without mutating. -/
def erasePos (s : SL) (pos : Nat) : SL :=
  if pos < s.cols.length then
    let s1 := { s with cols := s.cols.eraseIdx pos, count := s.count - 1, balanced := false }
    if s1.count < s1.countMin then removeLevel s1 else s1
  else s

/-- `pop_front()`: erase the begin cursor; a no-op (after an assertion) on
an empty container (`!m_head`). -/
def popFront (s : SL) : SL :=
  if s.levelCount = 0 then s else erasePos s 0

/-- `pop_back()`: erase the tail cursor; a no-op (after an assertion) when
`m_tail` is null. -/
def popBack (s : SL) : SL :=
  if s.count = 0 then s else erasePos s (s.count - 1)

/-- The `while (nodeIndex % 2 == 0)` loop of `calcBalancedLevel` for a
positive index: one plus the number of trailing zero bits. -/
def calcBalancedLevelLoop (i : Nat) : Nat :=
  if i % 2 = 0 ∧ 0 < i then calcBalancedLevelLoop (i / 2) + 1 else 1
termination_by i
decreasing_by omega

/-- `calcBalancedLevel(nodeIndex)`: the highest level the `nodeIndex`-th
column of a balanced skiplist occupies; index `0` is the dummy head
column, which spans all `m_levelCount` levels. -/
def calcBalancedLevel (L : Nat) (i : Nat) : Nat :=
  if i = 0 then L else calcBalancedLevelLoop i

/-- The rebuilding loop of `balanceWorker`: walking the bottom list with
`nodeCount` starting at `i`, each column is rebuilt to height
`calcBalancedLevel(nodeCount)` (the loop allocates `level - 1` fresh upper
nodes per column after the teardown of all non-bottom levels). -/
def rebalanceColsAux (L : Nat) (i : Nat) : List Col → List Col
  | [] => []
  | c :: rest => ⟨c.entry, calcBalancedLevel L i⟩ :: rebalanceColsAux L (i + 1) rest

/-- All columns of the bottom list rebuilt to their balanced heights,
`nodeCount` starting at `1` as in `balanceWorker`. -/
def rebalanceCols (L : Nat) (cols : List Col) : List Col :=
  rebalanceColsAux L 1 cols

/-- `balance()` via `balanceWorker`: return at once when `m_balanced`;
otherwise set `m_balanced`, return when `m_head` is null (`m_levelCount =
0`), and otherwise tear down every non-bottom level and rebuild each
column to its balanced height. -/
def balance (s : SL) : SL :=
  if s.balanced then s
  else if s.levelCount = 0 then { s with balanced := true }
  else { s with balanced := true, cols := rebalanceCols s.levelCount s.cols }

/-- `SkiplistBalancingIterator::StartLocation`. -/
inductive StartLocation where
  | BEGINNING
  | END
  | UNKNOWN
deriving Repr, DecidableEq

/-- State of a `SkiplistBalancingIterator`: the current bottom node as a
column index (none = end), `m_index`, `m_dontBalance` and
`m_startLocation`. -/
structure BIter where
  pos : Option Nat
  index : Nat
  dontBalance : Bool
  startLoc : StartLocation
deriving Repr, DecidableEq

/-- `end()`: `iterator(*this, nullptr, m_count)`; the index constructor
sets `m_dontBalance = is_balanced()` and tags a null start node `END`. -/
def endIter (s : SL) : BIter :=
  { pos := none, index := s.count, dontBalance := s.balanced, startLoc := .END }

/-- `begin()`: the end iterator when `m_head` is null, otherwise
`iterator(*this, m_begin, 0)`, tagged `BEGINNING` (or `END` when
`m_begin` is null, which only happens on an element-free level graph). -/
def beginIter (s : SL) : BIter :=
  if s.levelCount = 0 then endIter s
  else if s.cols.isEmpty then { pos := none, index := 0, dontBalance := s.balanced, startLoc := .END }
  else { pos := some 0, index := 0, dontBalance := s.balanced, startLoc := .BEGINNING }

/-- `SkiplistBalancingIterator::balance()`: nothing at the end iterator;
otherwise compute the desired height `calcBalancedLevel(m_index + 1)` and
resize the current column: too tall tears down the excess via
`eraseAbove`, too short extends via `insertAbove`, which cannot climb past
the top list. -/
def iterColBalance (s : SL) (it : BIter) : SL :=
  match it.pos with
  | none => s
  | some p =>
    let c := s.cols.getD p default
    let desired := calcBalancedLevel s.levelCount (it.index + 1)
    let newH := if desired ≤ c.h then desired else min desired s.levelCount
    { s with cols := s.cols.set p ⟨c.entry, newH⟩ }

/-- `SkiplistBalancingIterator::operator++`: balance the current column
unless `m_dontBalance`, advance to `Next` and bump `m_index`; when the
walk falls off the end of a sweep that started at `BEGINNING`, set the
container's `m_balanced` flag and stop balancing.  Incrementing the end
iterator is an assertion failure and is modelled as a no-op. -/
def iterInc (s : SL) (it : BIter) : SL × BIter :=
  match it.pos with
  | none => (s, it)
  | some p =>
    let s1 := if it.dontBalance then s else iterColBalance s it
    let newPos : Option Nat := if p + 1 < s1.cols.length then some (p + 1) else none
    let it1 : BIter := { it with pos := newPos, index := it.index + 1 }
    if newPos = none ∧ it.dontBalance = false ∧ it.startLoc = StartLocation.BEGINNING then
      ({ s1 with balanced := true }, { it1 with dontBalance := true })
    else
      (s1, it1)

/-- `SkiplistBalancingIterator::operator--`: step from the end iterator to
`m_tail`, or to `Prev` (decrementing the begin iterator trips an assertion
and moves nothing); then, unless `m_dontBalance`, balance the new current
column, and when a sweep that started at `END` has reached the first
element, set the container's `m_balanced` flag and stop balancing.
Decrementing the end iterator of an empty container is an assertion
failure and is modelled as a no-op. -/
def iterDec (s : SL) (it : BIter) : SL × BIter :=
  match it.pos with
  | none =>
    if s.cols.isEmpty then (s, it)
    else
      let it1 : BIter := { it with pos := some (s.cols.length - 1), index := it.index - 1 }
      iterDecBalance s it1
  | some p =>
    let it1 : BIter := if 1 ≤ p then { it with pos := some (p - 1), index := it.index - 1 } else it
    iterDecBalance s it1
where
  /-- The balancing tail of `operator--` shared by both branches. -/
  iterDecBalance (s : SL) (it1 : BIter) : SL × BIter :=
    if it1.dontBalance then (s, it1)
    else
      let s2 := iterColBalance s it1
      if it1.pos = some 0 ∧ it1.startLoc = StartLocation.END then
        ({ s2 with balanced := true }, { it1 with dontBalance := true })
      else
        (s2, it1)

/-- `n` applications of `operator++`. -/
def iterateInc : Nat → SL × BIter → SL × BIter
  | 0, x => x
  | n + 1, x => iterateInc n (iterInc x.1 x.2)

/-- `n` applications of `operator--`. -/
def iterateDec : Nat → SL × BIter → SL × BIter
  | 0, x => x
  | n + 1, x => iterateDec n (iterDec x.1 x.2)

/-- A full forward sweep: start at `begin()` and increment past the final
element. -/
def sweepForward (s : SL) : SL :=
  (iterateInc s.cols.length (s, beginIter s)).1

/-- A full backward sweep: start at `end()` and decrement down to the
first element. -/
def sweepBackward (s : SL) : SL :=
  (iterateDec s.cols.length (s, endIter s)).1

/-- The bottom list is sorted by `m_keyCompare` (non-strictly, as in a
multimap): spec invariant 1. -/
def SortedLe (cols : List Col) : Prop :=
  List.Pairwise (fun a b => a.key ≤ b.key) cols

/-- The bottom list is strictly sorted: invariant 1 specialized to a MAP,
where no two equivalent keys coexist. -/
def SortedLt (cols : List Col) : Prop :=
  List.Pairwise (fun a b => a.key < b.key) cols

/-- Structural well-formedness of a container state between public
operations: the cached size matches the bottom list, the thresholds match
`updateMinMax`, every column reaches the bottom list, a non-empty bottom
list has at least one level, the bottom list is sorted, and spec invariant
5 (`count_min ≤ size ≤ count_max` whenever `size > 0`) holds. -/
def WF (s : SL) : Prop :=
  s.count = s.cols.length ∧
  s.countMin = countMinFor s.levelCount ∧
  s.countMax = countMaxFor s.levelCount ∧
  (∀ c ∈ s.cols, 1 ≤ c.h) ∧
  (s.cols ≠ [] → 1 ≤ s.levelCount) ∧
  SortedLe s.cols ∧
  (0 < s.count → s.countMin ≤ s.count ∧ s.count ≤ s.countMax)

instance (s : SL) : Decidable (WF s) := by
  unfold WF SortedLe
  infer_instance

instance (cols : List Col) : Decidable (SortedLt cols) := by
  unfold SortedLt
  infer_instance

/-- A hint iterator is valid for a container when it is the end iterator
or points at one of its bottom nodes. -/
def HintOk (s : SL) (hint : Option Nat) : Prop :=
  ∀ i, hint = some i → i < s.count

/-- The containers reachable by public operations from a default-
constructed instance with an arbitrary random seed.  Hinted inserts carry
their C++ precondition that the hint iterator belongs to the container. -/
inductive Reachable : SL → Prop where
  | init (g : List Nat) : Reachable (initSL g)
  | stepInsert (s : SL) (mm : Bool) (k : Key) (v : Val) :
      Reachable s → Reachable (insert s mm k v).1
  | stepInsertHintMap (s : SL) (hint : Option Nat) (k : Key) (v : Val) :
      HintOk s hint → Reachable s → Reachable (insertWithHintMap s hint k v).1
  | stepInsertHintMultimap (s : SL) (hint : Option Nat) (k : Key) (v : Val) :
      HintOk s hint → Reachable s → Reachable (insertWithHintMultimap s hint k v).1
  | stepErase (s : SL) (k : Key) : Reachable s → Reachable (erase s k).1
  | stepErasePos (s : SL) (pos : Nat) : Reachable s → Reachable (erasePos s pos)
  | stepPopFront (s : SL) : Reachable s → Reachable (popFront s)
  | stepPopBack (s : SL) : Reachable s → Reachable (popBack s)
  | stepClear (s : SL) : Reachable s → Reachable (clear s)
  | stepBalance (s : SL) : Reachable s → Reachable (balance s)
  | stepIterInc (s : SL) (it : BIter) : Reachable s → Reachable (iterInc s it).1
  | stepIterDec (s : SL) (it : BIter) : Reachable s → Reachable (iterDec s it).1

/-- A predicate on columns that, once true at some position of the list,
stays true at every later position; the form in which strict weak order
monotonicity enters the descent proofs. -/
def MonoOn (p : Col → Bool) (cols : List Col) : Prop :=
  ∀ i j, i ≤ j → j < cols.length → p (cols.getD i default) = true →
    p (cols.getD j default) = true

/-- `o` is the position of the leftmost column satisfying `p`, or none when
no column does. -/
def IsLeftmost (cols : List Col) (p : Col → Bool) : Option Nat → Prop
  | some i => i < cols.length ∧ p (cols.getD i default) = true ∧
      ∀ j, j < i → p (cols.getD j default) = false
  | none => ∀ j, j < cols.length → p (cols.getD j default) = false

/-- The size-accounting fields of a container: both thresholds match
`updateMinMax`, no levels remain on an empty container, and spec invariant
5 (`count_min ≤ size ≤ count_max` whenever `size > 0`) holds. -/
def CountInv (s : SL) : Prop :=
  s.countMin = countMinFor s.levelCount ∧
  s.countMax = countMaxFor s.levelCount ∧
  (s.count = 0 → s.levelCount = 0) ∧
  (0 < s.count → s.countMin ≤ s.count ∧ s.count ≤ s.countMax)

/-- A sample well-formed two-element container. -/
def sampleA : SL :=
  { cols := [⟨(1, 10), 1⟩, ⟨(3, 30), 2⟩], levelCount := 2, count := 2,
    countMin := 2, countMax := 3, balanced := true, rng := [1] }

/-- A sample one-element MAP container whose flag is balanced. -/
def sampleB : SL :=
  { cols := [⟨(1, 10), 1⟩], levelCount := 1, count := 1,
    countMin := 1, countMax := 1, balanced := true, rng := [] }

/-- A sample unbalanced well-formed container. -/
def sampleC : SL :=
  { cols := [⟨(1, 1), 1⟩, ⟨(2, 2), 1⟩], levelCount := 2, count := 2,
    countMin := 2, countMax := 3, balanced := false, rng := [] }

/-- A sample well-formed two-element container used as a hinted-insert
target. -/
def sampleD : SL :=
  { cols := [⟨(1, 1), 1⟩, ⟨(3, 3), 2⟩], levelCount := 2, count := 2,
    countMin := 2, countMax := 3, balanced := true, rng := [1] }

/-- Indexing with a default hits a member of the list. -/
theorem getD_mem (cols : List Col) (j : Nat) (hj : j < cols.length) :
    cols.getD j default ∈ cols := by
  induction cols generalizing j with
  | nil => simp at hj
  | cons c rest ih =>
    cases j with
    | zero => simp
    | succ j =>
      simp only [List.getD_cons_succ]
      exact List.mem_cons_of_mem _ (ih j (by simpa using hj))

/-- `SortedLe` in index form. -/
theorem sortedLe_getD {cols : List Col} (hs : SortedLe cols) (i j : Nat)
    (hij : i ≤ j) (hj : j < cols.length) :
    (cols.getD i default).key ≤ (cols.getD j default).key := by
  rcases Nat.lt_or_ge i j with hlt | hge
  · have hi : i < cols.length := lt_trans hlt hj
    have := (List.pairwise_iff_getElem.mp hs) i j hi hj hlt
    simpa [List.getD_eq_getElem?_getD, List.getElem?_eq_getElem, hi, hj] using this
  · have : i = j := le_antisymm hij hge
    subst this
    exact le_refl _

/-- Sortedness makes the upper-bound predicate monotone along the list. -/
theorem monoOn_upper {cols : List Col} (hs : SortedLe cols) (k : Key) :
    MonoOn (fun c => cmpLt k c.key) cols := by
  intro i j hij hj hp
  simp only [cmpLt, decide_eq_true_eq] at hp ⊢
  exact lt_of_lt_of_le hp (sortedLe_getD hs i j hij hj)

/-- Sortedness makes the lower-bound predicate monotone along the list. -/
theorem monoOn_lower {cols : List Col} (hs : SortedLe cols) (k : Key) :
    MonoOn (fun c => !cmpLt c.key k) cols := by
  intro i j hij hj hp
  simp only [cmpLt, Bool.not_eq_true', decide_eq_false_iff_not, not_lt] at hp ⊢
  exact le_trans hp (sortedLe_getD hs i j hij hj)

/-- A successful `nextFrom` hits a column of sufficient height. -/
theorem nextFrom_some_height (cols : List Col) (l : Nat) :
    ∀ start i, nextFrom cols l start = some i → l ≤ (cols.getD i default).h := by
  intro start
  induction start using nextFrom.induct cols l with
  | case1 start hs hle =>
    intro i h
    rw [nextFrom, if_pos hs, if_pos hle] at h
    simp only [Option.some.injEq] at h
    exact h ▸ hle
  | case2 start hs hle ih =>
    intro i h
    rw [nextFrom, if_pos hs, if_neg hle] at h
    exact ih i h
  | case3 start hs =>
    intro i h
    rw [nextFrom, if_neg hs] at h
    exact absurd h (by simp)

/-- `nextFrom` skips exactly the columns that are too short. -/
theorem nextFrom_some_skipped (cols : List Col) (l : Nat) :
    ∀ start i, nextFrom cols l start = some i →
      ∀ j, start ≤ j → j < i → (cols.getD j default).h < l := by
  intro start
  induction start using nextFrom.induct cols l with
  | case1 start hs hle =>
    intro i h j h1 h2
    rw [nextFrom, if_pos hs, if_pos hle] at h
    simp only [Option.some.injEq] at h
    omega
  | case2 start hs hle ih =>
    intro i h j h1 h2
    rw [nextFrom, if_pos hs, if_neg hle] at h
    rcases Nat.eq_or_lt_of_le h1 with rfl | h1'
    · omega
    · exact ih i h j h1' h2
  | case3 start hs =>
    intro i h
    rw [nextFrom, if_neg hs] at h
    exact absurd h (by simp)

/-- When `nextFrom` fails, every remaining column is too short. -/
theorem nextFrom_none (cols : List Col) (l : Nat) :
    ∀ start, nextFrom cols l start = none →
      ∀ j, start ≤ j → j < cols.length → (cols.getD j default).h < l := by
  intro start
  induction start using nextFrom.induct cols l with
  | case1 start hs hle =>
    intro h
    rw [nextFrom, if_pos hs, if_pos hle] at h
    exact absurd h (by simp)
  | case2 start hs hle ih =>
    intro h j h1 h2
    rw [nextFrom, if_pos hs, if_neg hle] at h
    rcases Nat.eq_or_lt_of_le h1 with rfl | h1'
    · omega
    · exact ih h j h1' h2
  | case3 start hs =>
    intro h j h1 h2
    omega

/-- At the bottom level every column is present, so `nextFrom` is the
identity scan. -/
theorem nextFrom_one (cols : List Col) (hh : ∀ c ∈ cols, 1 ≤ c.h) (start : Nat) :
    nextFrom cols 1 start = if start < cols.length then some start else none := by
  rcases Nat.lt_or_ge start cols.length with hs | hs
  · rw [nextFrom, if_pos hs, if_pos (hh _ (getD_mem cols start hs)), if_pos hs]
  · rw [nextFrom, if_neg (by omega), if_neg (by omega)]

/-- The advance loop never moves left. -/
theorem walk_ge (cols : List Col) (l : Nat) (p : Col → Bool) :
    ∀ start, start ≤ walk cols l p start := by
  intro start
  induction start using walk.induct cols l p with
  | case1 start hnf => rw [walk_none hnf]
  | case2 start i hnf hp => rw [walk_some_stop hnf hp]
  | case3 start i hnf hp ih =>
    rw [walk_some_adv hnf (by simpa using hp)]
    have := (nextFrom_some_bounds cols l start i hnf).1
    omega

/-- The advance loop stays inside the list. -/
theorem walk_le (cols : List Col) (l : Nat) (p : Col → Bool) :
    ∀ start, start ≤ cols.length → walk cols l p start ≤ cols.length := by
  intro start
  induction start using walk.induct cols l p with
  | case1 start hnf => intro h; rwa [walk_none hnf]
  | case2 start i hnf hp => intro h; rwa [walk_some_stop hnf hp]
  | case3 start i hnf hp ih =>
    intro h
    rw [walk_some_adv hnf (by simpa using hp)]
    have := (nextFrom_some_bounds cols l start i hnf).2
    exact ih (by omega)

/-- Every column the advance loop passes over fails the predicate: the
skipped short columns fail it by monotonicity, the visited level-`l` nodes
fail it by the loop condition. -/
theorem walk_failures (cols : List Col) (l : Nat) (p : Col → Bool)
    (hm : MonoOn p cols) :
    ∀ start, ∀ j, start ≤ j → j < walk cols l p start →
      p (cols.getD j default) = false := by
  intro start
  induction start using walk.induct cols l p with
  | case1 start hnf =>
    intro j h1 h2
    rw [walk_none hnf] at h2
    omega
  | case2 start i hnf hp =>
    intro j h1 h2
    rw [walk_some_stop hnf hp] at h2
    omega
  | case3 start i hnf hp ih =>
    intro j h1 h2
    have hp' : p (cols.getD i default) = false := by simpa using hp
    rw [walk_some_adv hnf hp'] at h2
    have hbi := nextFrom_some_bounds cols l start i hnf
    rcases Nat.lt_or_ge j (i + 1) with hj | hj
    · rcases Nat.eq_or_lt_of_le (Nat.le_of_lt_succ hj) with rfl | hji
      · exact hp'
      · by_contra hc
        have hc' : p (cols.getD j default) = true := by
          cases hpj : p (cols.getD j default)
          · exact absurd hpj hc
          · rfl
        have := hm j i (by omega) hbi.2 hc'
        rw [this] at hp'
        cases hp'
    · exact ih j hj h2

/-- Where the bottom-level advance loop stops: either past the end of the
list or on a column satisfying the predicate. -/
theorem walk_one_boundary (cols : List Col) (p : Col → Bool)
    (hh : ∀ c ∈ cols, 1 ≤ c.h) :
    ∀ start, start ≤ cols.length →
      walk cols 1 p start = cols.length ∨
        (walk cols 1 p start < cols.length ∧
          p (cols.getD (walk cols 1 p start) default) = true) := by
  intro start
  induction start using walk.induct cols 1 p with
  | case1 start hnf =>
    intro hle
    rw [walk_none hnf]
    rw [nextFrom_one cols hh start] at hnf
    left
    by_contra hc
    have hs : start < cols.length := by omega
    rw [if_pos hs] at hnf
    exact absurd hnf (by simp)
  | case2 start i hnf hp =>
    intro hle
    rw [walk_some_stop hnf hp]
    rw [nextFrom_one cols hh start] at hnf
    rcases Nat.lt_or_ge start cols.length with h | h
    · rw [if_pos h] at hnf
      simp only [Option.some.injEq] at hnf
      right
      exact ⟨h, hnf ▸ hp⟩
    · rw [if_neg (by omega)] at hnf
      exact absurd hnf (by simp)
  | case3 start i hnf hp ih =>
    intro hle
    rw [walk_some_adv hnf (by simpa using hp)]
    have := (nextFrom_some_bounds cols 1 start i hnf).2
    exact ih (by omega)

/-- The full descent never moves left. -/
theorem descend_ge (cols : List Col) (p : Col → Bool) :
    ∀ L start, start ≤ descend cols p L start := by
  intro L
  induction L with
  | zero => intro start; simp [descend]
  | succ l ih =>
    intro start
    have h1 := walk_ge cols (l + 1) p start
    have h2 := ih (walk cols (l + 1) p start)
    simp only [descend]
    omega

/-- The full descent stays inside the list. -/
theorem descend_le (cols : List Col) (p : Col → Bool) :
    ∀ L start, start ≤ cols.length → descend cols p L start ≤ cols.length := by
  intro L
  induction L with
  | zero => intro start h; simpa [descend]
  | succ l ih =>
    intro start h
    simp only [descend]
    exact ih _ (walk_le cols (l + 1) p start h)

/-- Every column to the left of the descent's stopping point fails the
predicate. -/
theorem descend_failures (cols : List Col) (p : Col → Bool) (hm : MonoOn p cols) :
    ∀ L start, ∀ j, start ≤ j → j < descend cols p L start →
      p (cols.getD j default) = false := by
  intro L
  induction L with
  | zero =>
    intro start j h1 h2
    simp only [descend] at h2
    omega
  | succ l ih =>
    intro start j h1 h2
    simp only [descend] at h2
    rcases Nat.lt_or_ge j (walk cols (l + 1) p start) with hj | hj
    · exact walk_failures cols (l + 1) p hm start j h1 hj
    · exact ih _ j hj h2

/-- A descent that reaches the bottom list stops past the end or on a
column satisfying the predicate. -/
theorem descend_boundary (cols : List Col) (p : Col → Bool)
    (hh : ∀ c ∈ cols, 1 ≤ c.h) :
    ∀ L start, 1 ≤ L → start ≤ cols.length →
      descend cols p L start = cols.length ∨
        (descend cols p L start < cols.length ∧
          p (cols.getD (descend cols p L start) default) = true) := by
  intro L
  induction L with
  | zero => intro start h; omega
  | succ l ih =>
    intro start _ hle
    rcases Nat.eq_zero_or_pos l with rfl | hl
    · simp only [descend]
      exact walk_one_boundary cols p hh start hle
    · simp only [descend]
      exact ih _ hl (walk_le cols (l + 1) p start hle)

/-- The length of the longest prefix failing `p` marks the leftmost
position satisfying `p`: every column before it fails `p`, and it is the
list length or a position satisfying `p`. -/
theorem takeWhile_not_spec (p : Col → Bool) (cols : List Col) :
    (∀ j, j < (cols.takeWhile (fun c => !p c)).length → p (cols.getD j default) = false) ∧
    ((cols.takeWhile (fun c => !p c)).length = cols.length ∨
      ((cols.takeWhile (fun c => !p c)).length < cols.length ∧
        p (cols.getD (cols.takeWhile (fun c => !p c)).length default) = true)) := by
  induction cols with
  | nil => exact ⟨fun j hj => by simp at hj, Or.inl rfl⟩
  | cons c rest ih =>
    cases hpc : p c with
    | true =>
      have ht : (c :: rest).takeWhile (fun c => !p c) = [] := by
        simp [List.takeWhile_cons, hpc]
      refine ⟨fun j hj => by simp [ht] at hj, Or.inr ?_⟩
      simp [ht, hpc]
    | false =>
      have ht : (c :: rest).takeWhile (fun c => !p c) =
          c :: rest.takeWhile (fun c => !p c) := by
        simp [List.takeWhile_cons, hpc]
      constructor
      · intro j hj
        cases j with
        | zero => simpa using hpc
        | succ j =>
          rw [ht] at hj
          simp only [List.length_cons, Nat.succ_lt_succ_iff] at hj
          simpa using ih.1 j hj
      · rcases ih.2 with h | h
        · left; simp [ht, h]
        · right
          rw [ht]
          simp only [List.length_cons, Nat.succ_lt_succ_iff, List.getD_cons_succ]
          exact h

/-- Two positions that are each preceded only by failures and that each
sit at the end of the list or on a success must coincide. -/
theorem leftmost_pos_unique (p : Col → Bool) (cols : List Col) (r1 r2 : Nat)
    (h1a : ∀ j, j < r1 → p (cols.getD j default) = false)
    (h1b : r1 = cols.length ∨ (r1 < cols.length ∧ p (cols.getD r1 default) = true))
    (h2a : ∀ j, j < r2 → p (cols.getD j default) = false)
    (h2b : r2 = cols.length ∨ (r2 < cols.length ∧ p (cols.getD r2 default) = true)) :
    r1 = r2 := by
  rcases Nat.lt_trichotomy r1 r2 with h | h | h
  · have hf := h2a r1 h
    rcases h1b with rfl | ⟨_, ht⟩
    · rcases h2b with h' | ⟨h', _⟩ <;> omega
    · rw [ht] at hf; cases hf
  · exact h
  · have hf := h1a r2 h
    rcases h2b with rfl | ⟨_, ht⟩
    · rcases h1b with h' | ⟨h', _⟩ <;> omega
    · rw [ht] at hf; cases hf

/-- The recursive descent from the top of a well-formed level graph stops
exactly at the longest prefix of the bottom list failing the predicate. -/
theorem descend_eq_takeWhile (cols : List Col) (p : Col → Bool)
    (hm : MonoOn p cols) (hh : ∀ c ∈ cols, 1 ≤ c.h) (L : Nat) (hL : 1 ≤ L) :
    descend cols p L 0 = (cols.takeWhile (fun c => !p c)).length := by
  have hspec := takeWhile_not_spec p cols
  refine leftmost_pos_unique p cols _ _ ?_ ?_ hspec.1 hspec.2
  · intro j hj
    exact descend_failures cols p hm L 0 j (Nat.zero_le j) hj
  · have hle := descend_le cols p L 0 (Nat.zero_le _)
    rcases descend_boundary cols p hh L 0 hL (Nat.zero_le _) with h | h
    · exact Or.inl h
    · exact Or.inr h

/-- Correctness of the bound-search descent: on a sorted well-formed state
it returns the leftmost bottom node satisfying the (monotone) predicate,
or the end iterator if none does. -/
theorem findRecursiveBy_isLeftmost (cols : List Col) (L : Nat) (p : Col → Bool)
    (hm : MonoOn p cols) (hh : ∀ c ∈ cols, 1 ≤ c.h) (hL : cols ≠ [] → 1 ≤ L) :
    IsLeftmost cols p (findRecursiveBy cols L p) := by
  by_cases h0 : L = 0
  · have hc : cols = [] := by
      by_contra hc
      have := hL hc
      omega
    subst hc h0
    simp only [findRecursiveBy, if_pos rfl]
    intro j hj
    simp at hj
  · have hL1 : 1 ≤ L := by omega
    have heq := descend_eq_takeWhile cols p hm hh L hL1
    have hspec := takeWhile_not_spec p cols
    rw [findRecursiveBy, if_neg h0]
    rw [nextFrom_one cols hh _]
    rcases hspec.2 with hend | ⟨hlt, hp⟩
    · rw [if_neg (by omega)]
      intro j hj
      exact hspec.1 j (by omega)
    · rw [if_pos (by omega)]
      exact ⟨by omega, by rw [heq]; exact hp, fun j hj => hspec.1 j (by omega)⟩

/-- Unfolding of the point query at the null level. -/
theorem findRecursive_zero (cols : List Col) (k : Key) (start : Nat) :
    findRecursive cols k 0 start = none := by
  rw [findRecursive]

/-- Unfolding of the point query when the level scan fails: go down. -/
theorem findRecursive_succ_none {cols : List Col} {k : Key} {l start : Nat}
    (h : nextFrom cols (l + 1) start = none) :
    findRecursive cols k (l + 1) start = findRecursive cols k l start := by
  rw [findRecursive]
  split <;> simp_all

/-- Unfolding of the point query when the next node's key is greater: go
down. -/
theorem findRecursive_succ_down {cols : List Col} {k : Key} {l start i : Nat}
    (h : nextFrom cols (l + 1) start = some i)
    (hlt : cmpLt k (cols.getD i default).key = true) :
    findRecursive cols k (l + 1) start = findRecursive cols k l start := by
  rw [findRecursive]
  split <;> simp_all

/-- Unfolding of the point query when the next node matches. -/
theorem findRecursive_succ_found {cols : List Col} {k : Key} {l start i : Nat}
    (h : nextFrom cols (l + 1) start = some i)
    (h1 : cmpLt k (cols.getD i default).key = false)
    (h2 : cmpLt (cols.getD i default).key k = false) :
    findRecursive cols k (l + 1) start = some i := by
  rw [findRecursive]
  split <;> simp_all

/-- Unfolding of the point query when the next node's key is smaller:
advance. -/
theorem findRecursive_succ_adv {cols : List Col} {k : Key} {l start i : Nat}
    (h : nextFrom cols (l + 1) start = some i)
    (h1 : cmpLt k (cols.getD i default).key = false)
    (h2 : cmpLt (cols.getD i default).key k = true) :
    findRecursive cols k (l + 1) start = findRecursive cols k (l + 1) (i + 1) := by
  rw [findRecursive]
  split <;> simp_all

/-- Soundness of the point query: a returned node lies in the list and its
key is equivalent to the searched key. -/
theorem findRecursive_some_spec (cols : List Col) (k : Key) :
    ∀ L start i, findRecursive cols k L start = some i →
      i < cols.length ∧ (cols.getD i default).key = k := by
  intro L start
  induction L, start using findRecursive.induct cols k with
  | case1 start =>
    intro i h
    rw [findRecursive_zero] at h
    exact absurd h (by simp)
  | case2 l start hnf ih =>
    intro i h
    rw [findRecursive_succ_none hnf] at h
    exact ih i h
  | case3 l start j hnf hlt ih =>
    intro i h
    rw [findRecursive_succ_down hnf hlt] at h
    exact ih i h
  | case4 l start j hnf h1 h2 =>
    intro i h
    have h1' : cmpLt k (cols.getD j default).key = false := by simpa using h1
    have h2' : cmpLt (cols.getD j default).key k = false := by simpa using h2
    rw [findRecursive_succ_found hnf h1' h2'] at h
    simp only [Option.some.injEq] at h
    rw [← h]
    refine ⟨(nextFrom_some_bounds cols (l + 1) start j hnf).2, ?_⟩
    simp only [cmpLt, decide_eq_false_iff_not, not_lt] at h1' h2'
    exact le_antisymm h1' h2'
  | case5 l start j hnf h1 h2 ih =>
    intro i h
    have h1' : cmpLt k (cols.getD j default).key = false := by simpa using h1
    have h2' : cmpLt (cols.getD j default).key k = true := by simpa using h2
    rw [findRecursive_succ_adv hnf h1' h2'] at h
    exact ih i h

/-- Completeness of the point query on a sorted well-formed state: when it
reports not-found, no bottom column at or after the start position carries
the key. -/
theorem findRecursive_none_spec (cols : List Col) (k : Key)
    (hs : SortedLe cols) (hh : ∀ c ∈ cols, 1 ≤ c.h) :
    ∀ L start, 1 ≤ L → findRecursive cols k L start = none →
      ∀ j, start ≤ j → j < cols.length → (cols.getD j default).key ≠ k := by
  intro L start
  induction L, start using findRecursive.induct cols k with
  | case1 start =>
    intro h
    omega
  | case2 l start hnf ih =>
    intro _ h j hj1 hj2
    rw [findRecursive_succ_none hnf] at h
    have hshort := nextFrom_none cols (l + 1) start hnf j hj1 hj2
    have := hh _ (getD_mem cols j hj2)
    have hl1 : 1 ≤ l := by omega
    exact ih hl1 h j hj1 hj2
  | case3 l start i hnf hlt ih =>
    intro _ h j hj1 hj2
    rw [findRecursive_succ_down hnf hlt] at h
    rcases Nat.eq_zero_or_pos l with rfl | hl
    · have hb := nextFrom_some_bounds cols 1 start i hnf
      have hi : i = start := by
        rw [nextFrom_one cols hh start, if_pos (by omega)] at hnf
        simp only [Option.some.injEq] at hnf
        omega
      have hkey := sortedLe_getD hs i j (by omega) hj2
      simp only [cmpLt, decide_eq_true_eq] at hlt
      intro hc
      rw [hc] at hkey
      exact absurd hkey (not_le.mpr hlt)
    · exact ih hl h j hj1 hj2
  | case4 l start i hnf h1 h2 =>
    intro _ h
    have h1' : cmpLt k (cols.getD i default).key = false := by simpa using h1
    have h2' : cmpLt (cols.getD i default).key k = false := by simpa using h2
    rw [findRecursive_succ_found hnf h1' h2'] at h
    exact absurd h (by simp)
  | case5 l start i hnf h1 h2 ih =>
    intro hL h j hj1 hj2
    have h1' : cmpLt k (cols.getD i default).key = false := by simpa using h1
    have h2' : cmpLt (cols.getD i default).key k = true := by simpa using h2
    rw [findRecursive_succ_adv hnf h1' h2'] at h
    have hb := nextFrom_some_bounds cols (l + 1) start i hnf
    rcases Nat.lt_or_ge j (i + 1) with hj | hj
    · have hkey := sortedLe_getD hs j i (by omega) hb.2
      simp only [cmpLt, decide_eq_true_eq] at h2'
      intro hc
      rw [hc] at hkey
      exact absurd h2' (not_lt.mpr hkey)
    · exact ih hL h j hj hj2

/-- The point query finds a key iff some bottom column carries it. -/
theorem findRecursive_isSome_iff (cols : List Col) (k : Key) (L : Nat)
    (hs : SortedLe cols) (hh : ∀ c ∈ cols, 1 ≤ c.h) (hL : cols ≠ [] → 1 ≤ L) :
    (findRecursive cols k L 0).isSome = true ↔
      ∃ j, j < cols.length ∧ (cols.getD j default).key = k := by
  constructor
  · intro h
    rcases Option.isSome_iff_exists.mp h with ⟨i, hi⟩
    have := findRecursive_some_spec cols k L 0 i hi
    exact ⟨i, this.1, this.2⟩
  · rintro ⟨j, hj, hkey⟩
    have hne : cols ≠ [] := by
      intro hc
      rw [hc] at hj
      simp at hj
    have hL1 := hL hne
    by_contra hc
    have hnone : findRecursive cols k L 0 = none := by
      cases hfr : findRecursive cols k L 0
      · rfl
      · rw [hfr] at hc; simp at hc
    exact findRecursive_none_spec cols k hs hh L 0 hL1 hnone j (Nat.zero_le j) hj hkey

/-- Shorthand for the components of `WF`. -/
theorem WF.count_eq {s : SL} (h : WF s) : s.count = s.cols.length := h.1

theorem WF.countMin_eq {s : SL} (h : WF s) : s.countMin = countMinFor s.levelCount := h.2.1

theorem WF.countMax_eq {s : SL} (h : WF s) : s.countMax = countMaxFor s.levelCount := h.2.2.1

theorem WF.heights {s : SL} (h : WF s) : ∀ c ∈ s.cols, 1 ≤ c.h := h.2.2.2.1

theorem WF.level_pos {s : SL} (h : WF s) : s.cols ≠ [] → 1 ≤ s.levelCount := h.2.2.2.2.1

theorem WF.sorted {s : SL} (h : WF s) : SortedLe s.cols := h.2.2.2.2.2.1

theorem WF.bounds {s : SL} (h : WF s) :
    0 < s.count → s.countMin ≤ s.count ∧ s.count ≤ s.countMax := h.2.2.2.2.2.2

/-- C2: on a well-formed container, `upper_bound(k)` returns the leftmost
bottom-list element whose key is strictly greater than `k` (the descent
predicate `cmp(k, element.key)`), or the end iterator when no such element
exists; and `lower_bound(k)`, the same descent with the reversed predicate
`!cmp(element.key, k)`, returns the first bottom-list element whose key is
not less than `k`, or end when none. -/
theorem upper_lower_bound_correct (s : SL) (hwf : WF s) (k : Key) :
    IsLeftmost s.cols (fun c => cmpLt k c.key) (upperBound s k) ∧
    IsLeftmost s.cols (fun c => !cmpLt c.key k) (lowerBound s k) := by
  constructor
  · exact findRecursiveBy_isLeftmost s.cols s.levelCount _
      (monoOn_upper hwf.sorted k) hwf.heights hwf.level_pos
  · exact findRecursiveBy_isLeftmost s.cols s.levelCount _
      (monoOn_lower hwf.sorted k) hwf.heights hwf.level_pos

/-- Witness for C2 at a concrete container and key. -/
theorem upper_lower_bound_correct_witness :
    WF sampleA ∧
      (IsLeftmost sampleA.cols (fun c => cmpLt 2 c.key) (upperBound sampleA 2) ∧
        IsLeftmost sampleA.cols (fun c => !cmpLt c.key 2) (lowerBound sampleA 2)) :=
  ⟨by decide, upper_lower_bound_correct sampleA (by decide) 2⟩

/-- C9: on a well-formed container, `at(k)` raises the recoverable
key-not-found error exactly when no element with key `k` is present, and
otherwise returns the mapped value of such an element (`at` is a const
member: the model is a pure function of the state, so the container is not
modified); `contains(k)` is true iff such an element is present. -/
theorem atKey_contains_correct (s : SL) (hwf : WF s) (k : Key) :
    ((∃ e, atKey s k = Except.error e) ↔
        ¬ ∃ j, j < s.cols.length ∧ (s.cols.getD j default).key = k) ∧
    (∀ v, atKey s k = Except.ok v →
        ∃ j, j < s.cols.length ∧ (s.cols.getD j default).key = k ∧
          (s.cols.getD j default).val = v) ∧
    (contains s k = true ↔ ∃ j, j < s.cols.length ∧ (s.cols.getD j default).key = k) := by
  have hiff := findRecursive_isSome_iff s.cols k s.levelCount
    hwf.sorted hwf.heights hwf.level_pos
  refine ⟨?_, ?_, ?_⟩
  · constructor
    · rintro ⟨e, he⟩ hex
      rcases Option.isSome_iff_exists.mp (hiff.mpr hex) with ⟨i, hi⟩
      simp only [atKey, findKey] at he
      rw [hi] at he
      exact absurd he (by simp)
    · intro hnone
      refine ⟨"Invalid Skiplist key.", ?_⟩
      simp only [atKey, findKey]
      cases hfr : findRecursive s.cols k s.levelCount 0 with
      | none => rfl
      | some i =>
        exact absurd (hiff.mp (by rw [hfr]; rfl)) hnone
  · intro v hv
    simp only [atKey, findKey] at hv
    cases hfr : findRecursive s.cols k s.levelCount 0 with
    | none => rw [hfr] at hv; exact absurd hv (by simp)
    | some i =>
      rw [hfr] at hv
      simp only [Except.ok.injEq] at hv
      have := findRecursive_some_spec s.cols k s.levelCount 0 i hfr
      exact ⟨i, this.1, this.2, hv⟩
  · simp only [contains, findKey]
    exact hiff

/-- Witness for C9 at a concrete container and keys. -/
theorem atKey_contains_correct_witness :
    WF sampleA ∧
      (((∃ e, atKey sampleA 3 = Except.error e) ↔
          ¬ ∃ j, j < sampleA.cols.length ∧ (sampleA.cols.getD j default).key = 3) ∧
        (∀ v, atKey sampleA 3 = Except.ok v →
          ∃ j, j < sampleA.cols.length ∧ (sampleA.cols.getD j default).key = 3 ∧
            (sampleA.cols.getD j default).val = v) ∧
        (contains sampleA 3 = true ↔
          ∃ j, j < sampleA.cols.length ∧ (sampleA.cols.getD j default).key = 3)) :=
  ⟨by decide, atKey_contains_correct sampleA (by decide) 3⟩

/-- Bridge between `getD` and bracket indexing. -/
theorem getD_eq_getElem' (l : List Col) (i : Nat) (h : i < l.length) :
    l.getD i default = l[i] := by
  simp [List.getD_eq_getElem?_getD, List.getElem?_eq_getElem h]

/-- Presence of a key, in index form and in membership form. -/
theorem exists_key_iff_mem (cols : List Col) (k : Key) :
    (∃ j, j < cols.length ∧ (cols.getD j default).key = k) ↔
      ∃ c ∈ cols, c.key = k := by
  constructor
  · rintro ⟨j, hj, hkey⟩
    exact ⟨cols.getD j default, getD_mem cols j hj, hkey⟩
  · rintro ⟨c, hc, hkey⟩
    rcases List.getElem_of_mem hc with ⟨i, hi, hci⟩
    exact ⟨i, hi, by rw [getD_eq_getElem' cols i hi, hci, hkey]⟩

/-- `SortedLt` in index form. -/
theorem sortedLt_getD {cols : List Col} (hs : SortedLt cols) (i j : Nat)
    (hij : i < j) (hj : j < cols.length) :
    (cols.getD i default).key < (cols.getD j default).key := by
  have hi : i < cols.length := lt_trans hij hj
  have := (List.pairwise_iff_getElem.mp hs) i j hi hj hij
  simpa [getD_eq_getElem', hi, hj] using this

/-- A strictly sorted list is sorted. -/
theorem SortedLt.le {cols : List Col} (hs : SortedLt cols) : SortedLe cols :=
  hs.imp le_of_lt

/-- `insertIdx` splits the list at the insertion point. -/
theorem insertIdx_eq_take_drop (a : Col) :
    ∀ (n : Nat) (l : List Col), n ≤ l.length →
      l.insertIdx n a = l.take n ++ a :: l.drop n := by
  intro n
  induction n with
  | zero => intro l _; simp [List.insertIdx_zero]
  | succ n ih =>
    intro l hl
    cases l with
    | nil => simp at hl
    | cons c t =>
      rw [List.insertIdx_succ_cons, ih t (by simpa using hl)]
      simp

/-- `getD` on the left part of an append. -/
theorem getD_append_left (l1 l2 : List Col) (i : Nat) (h : i < l1.length) :
    (l1 ++ l2).getD i default = l1.getD i default := by
  have h' : i < (l1 ++ l2).length := by simp; omega
  rw [getD_eq_getElem' _ i h', getD_eq_getElem' _ i h]
  exact List.getElem_append_left h

/-- `getD` at the junction of an append. -/
theorem getD_append_length (l1 l2 : List Col) :
    (l1 ++ l2).getD l1.length default = l2.getD 0 default := by
  induction l1 with
  | nil => simp
  | cons c t ih => simpa using ih

/-- Members of a prefix, with their index. -/
theorem mem_take_getD (l : List Col) (n : Nat) (x : Col) (hx : x ∈ l.take n) :
    ∃ i, i < n ∧ i < l.length ∧ l.getD i default = x := by
  rcases List.getElem_of_mem hx with ⟨i, hi, hxi⟩
  have hlen : i < n ∧ i < l.length := by
    have := hi
    simp only [List.length_take] at this
    omega
  refine ⟨i, hlen.1, hlen.2, ?_⟩
  rw [getD_eq_getElem' l i hlen.2, ← hxi, List.getElem_take]

/-- Members of a suffix, with their index. -/
theorem mem_drop_getD (l : List Col) (n : Nat) (x : Col) (hx : x ∈ l.drop n) :
    ∃ i, n ≤ i ∧ i < l.length ∧ l.getD i default = x := by
  rcases List.getElem_of_mem hx with ⟨i, hi, hxi⟩
  have hlen : n + i < l.length := by
    have := hi
    simp only [List.length_drop] at this
    omega
  refine ⟨n + i, by omega, hlen, ?_⟩
  rw [getD_eq_getElem' l (n + i) hlen, ← hxi, List.getElem_drop]

/-- Inserting an element keyed between the two halves keeps the bottom
list sorted. -/
theorem sortedLe_insertIdx (cols : List Col) (c : Col) (pos : Nat)
    (hpos : pos ≤ cols.length) (hs : SortedLe cols)
    (hleft : ∀ x ∈ cols.take pos, x.key ≤ c.key)
    (hright : ∀ x ∈ cols.drop pos, c.key ≤ x.key) :
    SortedLe (cols.insertIdx pos c) := by
  rw [insertIdx_eq_take_drop c pos cols hpos]
  have h0 : SortedLe (cols.take pos ++ cols.drop pos) := by
    rw [List.take_append_drop]; exact hs
  obtain ⟨h1, h2, h3⟩ := List.pairwise_append.mp h0
  rw [SortedLe, List.pairwise_append]
  refine ⟨h1, ?_, ?_⟩
  · rw [List.pairwise_cons]
    exact ⟨hright, h2⟩
  · intro a ha b hb
    rcases List.mem_cons.mp hb with rfl | hb'
    · exact hleft a ha
    · exact h3 a ha b hb'

/-- Membership after an insertion. -/
theorem mem_insertIdx_of (cols : List Col) (c : Col) (pos : Nat)
    (hpos : pos ≤ cols.length) (x : Col) (hx : x ∈ cols.insertIdx pos c) :
    x = c ∨ x ∈ cols := by
  rw [insertIdx_eq_take_drop c pos cols hpos] at hx
  rcases List.mem_append.mp hx with hx' | hx'
  · exact Or.inr (List.mem_of_mem_take hx')
  · rcases List.mem_cons.mp hx' with rfl | hx''
    · exact Or.inl rfl
    · exact Or.inr (List.mem_of_mem_drop hx'')

/-- The insertion index of the top-down descent when the (MAP) key is
already present in a strictly sorted list: one past the unique element
with that key. -/
theorem takeWhile_len_present (cols : List Col) (k : Key) (hst : SortedLt cols)
    (j : Nat) (hj : j < cols.length) (hkey : (cols.getD j default).key = k) :
    (cols.takeWhile (fun c => !cmpLt k c.key)).length = j + 1 := by
  have hspec := takeWhile_not_spec (fun c => cmpLt k c.key) cols
  refine leftmost_pos_unique (fun c => cmpLt k c.key) cols _ (j + 1)
    hspec.1 hspec.2 ?_ ?_
  · intro i hi
    simp only [cmpLt, decide_eq_false_iff_not, not_lt]
    rcases Nat.lt_or_ge i j with h | h
    · exact le_of_lt (hkey ▸ sortedLt_getD hst i j h hj)
    · have : i = j := by omega
      rw [this, hkey]
  · rcases Nat.eq_or_lt_of_le (Nat.succ_le_of_lt hj) with h | h
    · exact Or.inl h
    · right
      refine ⟨h, ?_⟩
      simp only [cmpLt, decide_eq_true_eq]
      exact hkey ▸ sortedLt_getD hst j (j + 1) (Nat.lt_succ_self j) h

/-- When the key is absent, the MAP duplicate check at the insertion index
passes: the index is zero or the left neighbour's key is strictly less. -/
theorem takeWhile_len_absent (cols : List Col) (k : Key)
    (habs : ∀ c ∈ cols, c.key ≠ k) :
    (cols.takeWhile (fun c => !cmpLt k c.key)).length = 0 ∨
      cmpLt (cols.getD ((cols.takeWhile (fun c => !cmpLt k c.key)).length - 1)
        default).key k = true := by
  have hspec := takeWhile_not_spec (fun c => cmpLt k c.key) cols
  set tw := (cols.takeWhile (fun c => !cmpLt k c.key)).length with htw
  rcases Nat.eq_zero_or_pos tw with h0 | hpos
  · exact Or.inl h0
  · right
    have htwle : tw ≤ cols.length := by
      rcases hspec.2 with h | h
      · omega
      · omega
    have hlt : tw - 1 < cols.length := by omega
    have hfail := hspec.1 (tw - 1) (by omega)
    simp only [cmpLt, decide_eq_false_iff_not, not_lt] at hfail
    have hne := habs _ (getD_mem cols (tw - 1) hlt)
    simp only [cmpLt, decide_eq_true_eq]
    rcases lt_or_eq_of_le hfail with h | h
    · exact h
    · exact absurd h hne

/-- In a strictly sorted list, the index carrying a given key is unique. -/
theorem strict_unique_index {cols : List Col} (hst : SortedLt cols) {k : Key}
    {i j : Nat} (hi : i < cols.length) (hj : j < cols.length)
    (hki : (cols.getD i default).key = k) (hkj : (cols.getD j default).key = k) :
    i = j := by
  rcases Nat.lt_trichotomy i j with h | h | h
  · have := sortedLt_getD hst i j h hj
    rw [hki, hkj] at this
    exact absurd this (lt_irrefl k)
  · exact h
  · have := sortedLt_getD hst j i h hi
    rw [hki, hkj] at this
    exact absurd this (lt_irrefl k)

/-- Evaluation of a MAP insert whose key is already present: the descent
stops just right of the unique element with that key, the duplicate check
blocks, the fresh nodes are torn down (undoing a provisional `addLevel`
when one happened), and the blocking node is returned with `false`. -/
theorem insert_map_present_eval (s : SL) (hwf : WF s) (hst : SortedLt s.cols)
    (k : Key) (v : Val) (j : Nat) (hj : j < s.cols.length)
    (hkey : (s.cols.getD j default).key = k) :
    insert s false k v =
      ((if s.count + 1 > s.countMax
          then removeLevel (addLevel { s with rng := s.rng.tail })
          else { s with rng := s.rng.tail }), j, false) := by
  have hne : s.cols ≠ [] := by intro hc; rw [hc] at hj; simp at hj
  have hL := hwf.level_pos hne
  have hcount : 0 < s.count := by rw [hwf.count_eq]; omega
  have hbounds := hwf.bounds hcount
  have htw := takeWhile_len_present s.cols k hst j hj hkey
  have hmono := monoOn_upper hst.le k
  have hidx : ∀ L', 1 ≤ L' →
      descend s.cols (fun c => cmpLt k c.key) L' 0 = j + 1 := by
    intro L' hL'
    rw [descend_eq_takeWhile s.cols _ hmono hwf.heights L' hL']
    exact htw
  have hblock : cmpLt (s.cols.getD j default).key k = false := by
    rw [hkey]
    simp [cmpLt]
  have hcond : (false || ((j + 1 : Nat) == 0) ||
      cmpLt (s.cols.getD (j + 1 - 1) default).key k) = false := by
    rw [Nat.add_sub_cancel, hblock]
    simp
  by_cases hmax : s.count + 1 > s.countMax
  · have hcmax : s.count = countMaxFor s.levelCount := by
      have := hwf.countMax_eq
      omega
    have hshrink : s.count < countMinFor (s.levelCount + 1) := by
      rw [countMinFor, if_neg (by omega), Nat.add_sub_cancel]
      have hpow : 1 ≤ 2 ^ s.levelCount := Nat.one_le_two_pow
      simp only [countMaxFor] at hcmax
      omega
    simp only [insert, insertTopDown, chooseLevel, addLevel_cols, addLevel_levelCount,
      addLevel_count, addLevel_countMin, if_pos hmax]
    rw [hidx (s.levelCount + 1) (by omega), hcond]
    rw [if_neg (by simp), if_pos hshrink]
    simp
  · simp only [insert, insertTopDown, chooseLevel, if_neg hmax]
    rw [hidx s.levelCount hL, hcond]
    have hnoshrink : ¬ s.count < s.countMin := by omega
    rw [if_neg (by simp), if_neg hnoshrink]
    simp

/-- Evaluation of a MAP insert whose key is absent: the descent stops at
the upper-bound position, the duplicate check passes, and the new column
is spliced there. -/
theorem insert_map_absent_eval (s : SL) (hwf : WF s) (hs : SortedLe s.cols)
    (k : Key) (v : Val) (habs : ∀ c ∈ s.cols, c.key ≠ k) :
    insert s false k v =
      ({ (if s.count + 1 > s.countMax
            then addLevel { s with rng := s.rng.tail }
            else { s with rng := s.rng.tail }) with
          cols := s.cols.insertIdx ((s.cols.takeWhile (fun c => !cmpLt k c.key)).length)
            ⟨(k, v),
              if s.count + 1 > s.countMax then s.levelCount + 1
              else min (s.rng.headD 1) s.levelCount⟩,
          count := s.count + 1,
          balanced := false },
        (s.cols.takeWhile (fun c => !cmpLt k c.key)).length, true) := by
  have hmono := monoOn_upper hs k
  have hcheck := takeWhile_len_absent s.cols k habs
  set tw := (s.cols.takeWhile (fun c => !cmpLt k c.key)).length with htwdef
  have hcond : (false || (tw == 0) ||
      cmpLt (s.cols.getD (tw - 1) default).key k) = true := by
    rcases hcheck with h | h
    · rw [h]; rfl
    · rw [h]; simp
  by_cases hmax : s.count + 1 > s.countMax
  · have hidx : descend s.cols (fun c => cmpLt k c.key) (s.levelCount + 1) 0 = tw :=
      descend_eq_takeWhile s.cols _ hmono hwf.heights _ (by omega)
    simp only [insert, insertTopDown, chooseLevel, addLevel_cols, addLevel_levelCount,
      addLevel_count, if_pos hmax]
    rw [hidx, hcond, if_pos rfl]
  · have hL : 1 ≤ s.levelCount := by
      have := hwf.countMax_eq
      have h1 : 1 ≤ s.countMax := by omega
      rw [this] at h1
      simp only [countMaxFor] at h1
      by_contra hc
      have hzero : s.levelCount = 0 := by omega
      rw [hzero] at h1
      simp at h1
    have hidx : descend s.cols (fun c => cmpLt k c.key) s.levelCount 0 = tw :=
      descend_eq_takeWhile s.cols _ hmono hwf.heights _ hL
    simp only [insert, insertTopDown, chooseLevel, if_neg hmax]
    rw [hidx, hcond, if_pos rfl]

/-- The inserted column is found at the insertion index. -/
theorem getD_insertIdx_self (cols : List Col) (c : Col) (pos : Nat)
    (hpos : pos ≤ cols.length) :
    (cols.insertIdx pos c).getD pos default = c := by
  rw [insertIdx_eq_take_drop c pos cols hpos]
  have hlen : (cols.take pos).length = pos := by rw [List.length_take]; omega
  have h2 := getD_append_length (cols.take pos) (c :: cols.drop pos)
  rw [hlen] at h2
  rw [h2]
  rfl

/-- A positive draw stream yields a positive draw. -/
theorem headD_pos {g : List Nat} (hg : ∀ x ∈ g, 1 ≤ x) : 1 ≤ g.headD 1 := by
  cases g with
  | nil => simp
  | cons x t => exact hg x (by simp)

/-- Replacing every column height leaves the entry sequence unchanged. -/
theorem map_entry_cap (l : List Col) (m : Nat) :
    (l.map (fun c => (⟨c.entry, min c.h m⟩ : Col))).map Col.entry = l.map Col.entry := by
  induction l with
  | nil => rfl
  | cons c t ih => simp [ih]

/-- Capping heights does not change which keys occur. -/
theorem exists_key_map_cap (l : List Col) (m : Nat) (q : Key) :
    (∃ c ∈ l.map (fun c => (⟨c.entry, min c.h m⟩ : Col)), c.key = q) ↔
      ∃ c ∈ l, c.key = q := by
  constructor
  · rintro ⟨c, hc, hk⟩
    rcases List.mem_map.mp hc with ⟨a, ha, rfl⟩
    exact ⟨a, ha, hk⟩
  · rintro ⟨c, hc, hk⟩
    exact ⟨_, List.mem_map_of_mem _ hc, hk⟩

/-- Capping heights preserves sortedness of the bottom list. -/
theorem sortedLe_map_cap {l : List Col} (hs : SortedLe l) (m : Nat) :
    SortedLe (l.map (fun c => (⟨c.entry, min c.h m⟩ : Col))) := by
  rw [SortedLe, List.pairwise_map]
  exact hs

/-- C1: for a MAP, `insert(k, v)` on a key already present returns the
pair `(find(k), false)` and leaves the container unchanged (same size,
same sequence of entries, `contains` unchanged on every key); on an absent
key the size grows by exactly one, `contains(k)` becomes true, and the
returned pair is an iterator to the new element together with `true`. -/
theorem insert_map_correct (s : SL) (hwf : WF s) (hst : SortedLt s.cols)
    (hrng : ∀ x ∈ s.rng, 1 ≤ x) (k : Key) (v : Val) :
    ((∃ c ∈ s.cols, c.key = k) →
      (insert s false k v).2.2 = false ∧
      (insert s false k v).1.count = s.count ∧
      (insert s false k v).1.cols.map Col.entry = s.cols.map Col.entry ∧
      (∀ q, contains (insert s false k v).1 q = contains s q) ∧
      findKey s k = some (insert s false k v).2.1) ∧
    ((¬ ∃ c ∈ s.cols, c.key = k) →
      (insert s false k v).2.2 = true ∧
      (insert s false k v).1.count = s.count + 1 ∧
      contains (insert s false k v).1 k = true ∧
      ((insert s false k v).1.cols.getD (insert s false k v).2.1 default).entry
        = (k, v)) := by
  constructor
  · intro hpres
    rcases (exists_key_iff_mem s.cols k).mpr hpres with ⟨j, hj, hkeyj⟩
    have hne : s.cols ≠ [] := by intro hc; rw [hc] at hj; simp at hj
    have hL := hwf.level_pos hne
    have heval := insert_map_present_eval s hwf hst k v j hj hkeyj
    refine ⟨by rw [heval], ?_, ?_, ?_, ?_⟩
    · rw [heval]
      split <;> simp
    · rw [heval]
      split
      · rw [removeLevel_cols]
        simp only [addLevel_cols, addLevel_levelCount, Nat.add_sub_cancel]
        exact map_entry_cap s.cols s.levelCount
      · rfl
    · intro q
      rw [heval]
      split
      · have hcap : (removeLevel (addLevel { s with rng := s.rng.tail })).cols =
            s.cols.map (fun c => (⟨c.entry, min c.h s.levelCount⟩ : Col)) := by
          rw [removeLevel_cols]
          simp
        rw [Bool.eq_iff_iff]
        have h1 := findRecursive_isSome_iff
          ((removeLevel (addLevel { s with rng := s.rng.tail })).cols) q
          ((removeLevel (addLevel { s with rng := s.rng.tail })).levelCount)
          (by rw [hcap]; exact sortedLe_map_cap hst.le s.levelCount)
          (by
            rw [hcap]
            intro c hc
            rcases List.mem_map.mp hc with ⟨a, ha, rfl⟩
            have := hwf.heights a ha
            simp only []
            omega)
          (by intro _; simp; omega)
        have h2 := findRecursive_isSome_iff s.cols q s.levelCount
          hwf.sorted hwf.heights hwf.level_pos
        rw [contains, findKey, contains, findKey]
        refine h1.trans (Iff.trans ?_ h2.symm)
        rw [exists_key_iff_mem, exists_key_iff_mem, hcap]
        exact exists_key_map_cap s.cols s.levelCount q
      · rfl
    · have hsome := (findRecursive_isSome_iff s.cols k s.levelCount
        hwf.sorted hwf.heights hwf.level_pos).mpr ⟨j, hj, hkeyj⟩
      rcases Option.isSome_iff_exists.mp hsome with ⟨i, hi⟩
      have hspec := findRecursive_some_spec s.cols k s.levelCount 0 i hi
      have : i = j := strict_unique_index hst hspec.1 hj hspec.2 hkeyj
      rw [heval, findKey, hi, this]
  · intro habs'
    have habs : ∀ c ∈ s.cols, c.key ≠ k := by
      intro c hc hck
      exact habs' ⟨c, hc, hck⟩
    have heval := insert_map_absent_eval s hwf hst.le k v habs
    have hspec := takeWhile_not_spec (fun c => cmpLt k c.key) s.cols
    set tw := (s.cols.takeWhile (fun c => !cmpLt k c.key)).length with htwdef
    have htwle : tw ≤ s.cols.length := by rcases hspec.2 with h | h <;> omega
    have hL' : 1 ≤ (if s.count + 1 > s.countMax then s.levelCount + 1
        else s.levelCount) := by
      split
      · omega
      · rename_i hmax
        have := hwf.countMax_eq
        have h1 : 1 ≤ s.countMax := by omega
        rw [this] at h1
        simp only [countMaxFor] at h1
        by_contra hc
        have hzero : s.levelCount = 0 := by omega
        rw [hzero] at h1
        simp at h1
    have hlvl : 1 ≤ (if s.count + 1 > s.countMax then s.levelCount + 1
        else min (s.rng.headD 1) s.levelCount) := by
      split
      · omega
      · rename_i hmax
        have h1 := headD_pos hrng
        have h2 : 1 ≤ s.levelCount := by
          have := hwf.countMax_eq
          have h3 : 1 ≤ s.countMax := by omega
          rw [this] at h3
          simp only [countMaxFor] at h3
          by_contra hc
          have hzero : s.levelCount = 0 := by omega
          rw [hzero] at h3
          simp at h3
        omega
    refine ⟨by rw [heval], by rw [heval], ?_, ?_⟩
    · -- contains of the new state
      set newCol : Col := ⟨(k, v),
        if s.count + 1 > s.countMax then s.levelCount + 1
        else min (s.rng.headD 1) s.levelCount⟩ with hnewdef
      have hleft : ∀ x ∈ s.cols.take tw, x.key ≤ newCol.key := by
        intro x hx
        rcases mem_take_getD s.cols tw x hx with ⟨i, hi1, hi2, rfl⟩
        have := hspec.1 i hi1
        simp only [cmpLt, decide_eq_false_iff_not, not_lt] at this
        exact this
      have hright : ∀ x ∈ s.cols.drop tw, newCol.key ≤ x.key := by
        intro x hx
        rcases mem_drop_getD s.cols tw x hx with ⟨i, hi1, hi2, rfl⟩
        have htwlt : tw < s.cols.length := by omega
        have hbd : cmpLt k (s.cols.getD tw default).key = true := by
          rcases hspec.2 with h | h
          · omega
          · exact h.2
        simp only [cmpLt, decide_eq_true_eq] at hbd
        have hmono := sortedLe_getD hwf.sorted tw i hi1 hi2
        simp only [hnewdef, Col.key]
        exact le_of_lt (lt_of_lt_of_le hbd hmono)
      have hsorted' : SortedLe (s.cols.insertIdx tw newCol) :=
        sortedLe_insertIdx s.cols newCol tw htwle hwf.sorted hleft hright
      have hh' : ∀ c ∈ s.cols.insertIdx tw newCol, 1 ≤ c.h := by
        intro c hc
        rcases mem_insertIdx_of s.cols newCol tw htwle c hc with rfl | hc'
        · exact hlvl
        · exact hwf.heights c hc'
      have hlen' : (s.cols.insertIdx tw newCol).length = s.cols.length + 1 :=
        List.length_insertIdx tw s.cols htwle
      have hiff := findRecursive_isSome_iff (s.cols.insertIdx tw newCol) k
        (if s.count + 1 > s.countMax then s.levelCount + 1 else s.levelCount)
        hsorted' hh' (by intro _; exact hL')
      have hmem : ∃ jx, jx < (s.cols.insertIdx tw newCol).length ∧
          ((s.cols.insertIdx tw newCol).getD jx default).key = k := by
        refine ⟨tw, by omega, ?_⟩
        rw [getD_insertIdx_self s.cols newCol tw htwle]
        rfl
      rw [heval]
      split
      · rw [contains, findKey]
        simp only [if_pos] at hiff ⊢
        rename_i hmax
        rw [if_pos hmax] at hiff
        exact hiff.mpr hmem
      · rw [contains, findKey]
        rename_i hmax
        rw [if_neg hmax] at hiff
        exact hiff.mpr hmem
    · rw [heval]
      exact congrArg Col.entry (getD_insertIdx_self s.cols _ tw htwle)

/-- Counterexample to C8 as stated: inserting the already-present key `1`
into a balanced MAP fails, yet `is_balanced` remains true afterwards — the
failure path of `insertTopDown` never clears `m_balanced`. -/
theorem insert_failed_balanced_counterexample :
    (insert sampleB false 1 99).2.2 = false ∧
      (insert sampleB false 1 99).1.balanced = true := by
  have heval := insert_map_present_eval sampleB (by decide) (by decide) 1 99 0
    (by decide) (by decide)
  rw [heval]
  decide

/-- C8 (amended): a §4.4 probabilistic insert that fails because the key
already exists in a MAP leaves the `is_balanced` flag unchanged; the flag
is cleared only when an insertion actually mutates the structure. -/
theorem insert_failed_keeps_balanced (s : SL) (hwf : WF s) (hst : SortedLt s.cols)
    (k : Key) (v : Val) (hpres : ∃ c ∈ s.cols, c.key = k) :
    (insert s false k v).2.2 = false ∧
      (insert s false k v).1.balanced = s.balanced := by
  rcases (exists_key_iff_mem s.cols k).mpr hpres with ⟨j, hj, hkeyj⟩
  have heval := insert_map_present_eval s hwf hst k v j hj hkeyj
  refine ⟨by rw [heval], ?_⟩
  rw [heval]
  split <;> simp

/-- Witness for the amended C8 at a concrete container. -/
theorem insert_failed_keeps_balanced_witness :
    WF sampleB ∧ SortedLt sampleB.cols ∧ (∃ c ∈ sampleB.cols, c.key = 1) ∧
      ((insert sampleB false 1 99).2.2 = false ∧
        (insert sampleB false 1 99).1.balanced = sampleB.balanced) :=
  ⟨by decide, by decide, by decide,
    insert_failed_keeps_balanced sampleB (by decide) (by decide) 1 99 (by decide)⟩

/-- Witness for C1 at concrete containers: one insert on a present key,
one on an absent key. -/
theorem insert_map_correct_witness :
    WF sampleA ∧ SortedLt sampleA.cols ∧ (∀ x ∈ sampleA.rng, 1 ≤ x) ∧
      (((∃ c ∈ sampleA.cols, c.key = 3) →
        (insert sampleA false 3 7).2.2 = false ∧
        (insert sampleA false 3 7).1.count = sampleA.count ∧
        (insert sampleA false 3 7).1.cols.map Col.entry = sampleA.cols.map Col.entry ∧
        (∀ q, contains (insert sampleA false 3 7).1 q = contains sampleA q) ∧
        findKey sampleA 3 = some (insert sampleA false 3 7).2.1) ∧
      ((¬ ∃ c ∈ sampleA.cols, c.key = 3) →
        (insert sampleA false 3 7).2.2 = true ∧
        (insert sampleA false 3 7).1.count = sampleA.count + 1 ∧
        contains (insert sampleA false 3 7).1 3 = true ∧
        ((insert sampleA false 3 7).1.cols.getD (insert sampleA false 3 7).2.1
          default).entry = (3, 7))) :=
  ⟨by decide, by decide, by decide,
    insert_map_correct sampleA (by decide) (by decide) (by decide) 3 7⟩

/-- Unfolding of the level-shrink loop. -/
theorem shrinkLevels_eq (s : SL) :
    shrinkLevels s =
      if s.count < s.countMin ∧ 0 < s.levelCount then shrinkLevels (removeLevel s)
      else s := by
  rw [shrinkLevels]

/-- The level-shrink loop never changes the element count. -/
theorem shrinkLevels_count (s : SL) : (shrinkLevels s).count = s.count := by
  induction s using shrinkLevels.induct with
  | case1 s hc ih =>
    rw [shrinkLevels_eq, if_pos hc]
    rw [ih, removeLevel_count]
  | case2 s hc =>
    rw [shrinkLevels_eq, if_neg hc]

/-- The right walk of the bottom erase pass drops exactly the elements
whose key equals `k`: on a sorted suffix whose keys are all at least `k`,
the equivalent elements form a prefix. -/
theorem dropWhile_right_run (k : Key) :
    ∀ l : List Col, SortedLe l → (∀ c ∈ l, k ≤ c.key) →
      l.length - (l.dropWhile (fun c => !cmpLt k c.key)).length =
        (l.filter (fun c => decide (c.key = k))).length := by
  intro l
  induction l with
  | nil => intro _ _; simp
  | cons c t ih =>
    intro hs hge
    have hsc := List.pairwise_cons.mp hs
    cases hk : cmpLt k c.key with
    | true =>
      have hd : (c :: t).dropWhile (fun c => !cmpLt k c.key) = c :: t := by
        rw [List.dropWhile_cons]
        simp [hk]
      have hf : (c :: t).filter (fun c => decide (c.key = k)) = [] := by
        rw [List.filter_eq_nil_iff]
        intro x hx
        simp only [cmpLt, decide_eq_true_eq] at hk
        simp only [decide_eq_true_eq]
        rcases List.mem_cons.mp hx with rfl | hx'
        · intro hc
          rw [hc] at hk
          exact absurd hk (lt_irrefl k)
        · have hcx := hsc.1 x hx'
          intro hc
          rw [hc] at hcx
          exact absurd (lt_of_lt_of_le hk hcx) (lt_irrefl k)
      rw [hd, hf]
      simp
    | false =>
      have hck : c.key = k := by
        have h1 := hge c (by simp)
        simp only [cmpLt, decide_eq_false_iff_not, not_lt] at hk
        exact le_antisymm hk h1
      have hd : (c :: t).dropWhile (fun c => !cmpLt k c.key) =
          t.dropWhile (fun c => !cmpLt k c.key) := by
        rw [List.dropWhile_cons]
        simp [hk]
      have hf : (c :: t).filter (fun c => decide (c.key = k)) =
          c :: t.filter (fun c => decide (c.key = k)) := by
        rw [List.filter_cons]
        simp [hck]
      have hdlen : (t.dropWhile (fun c => !cmpLt k c.key)).length ≤ t.length :=
        (List.dropWhile_sublist _).length_le
      have := ih hsc.2 (fun x hx => hge x (by simp [hx]))
      rw [hd, hf]
      simp only [List.length_cons]
      omega

/-- The left walk of the bottom erase pass (performed on the reversed
prefix) drops exactly the elements whose key equals `k`: on a reverse-
sorted list whose keys are all at most `k`, the equivalent elements form a
prefix. -/
theorem dropWhile_left_run (k : Key) :
    ∀ l : List Col, List.Pairwise (fun a b => b.key ≤ a.key) l →
      (∀ c ∈ l, c.key ≤ k) →
      l.length - (l.dropWhile (fun c => !cmpLt c.key k)).length =
        (l.filter (fun c => decide (c.key = k))).length := by
  intro l
  induction l with
  | nil => intro _ _; simp
  | cons c t ih =>
    intro hs hle
    have hsc := List.pairwise_cons.mp hs
    cases hk : cmpLt c.key k with
    | true =>
      have hd : (c :: t).dropWhile (fun c => !cmpLt c.key k) = c :: t := by
        rw [List.dropWhile_cons]
        simp [hk]
      have hf : (c :: t).filter (fun c => decide (c.key = k)) = [] := by
        rw [List.filter_eq_nil_iff]
        intro x hx
        simp only [cmpLt, decide_eq_true_eq] at hk
        simp only [decide_eq_true_eq]
        rcases List.mem_cons.mp hx with rfl | hx'
        · intro hc
          rw [hc] at hk
          exact absurd hk (lt_irrefl k)
        · have hcx := hsc.1 x hx'
          intro hc
          rw [hc] at hcx
          exact absurd (lt_of_le_of_lt hcx hk) (lt_irrefl k)
      rw [hd, hf]
      simp
    | false =>
      have hck : c.key = k := by
        have h1 := hle c (by simp)
        simp only [cmpLt, decide_eq_false_iff_not, not_lt] at hk
        exact le_antisymm h1 hk
      have hd : (c :: t).dropWhile (fun c => !cmpLt c.key k) =
          t.dropWhile (fun c => !cmpLt c.key k) := by
        rw [List.dropWhile_cons]
        simp [hk]
      have hf : (c :: t).filter (fun c => decide (c.key = k)) =
          c :: t.filter (fun c => decide (c.key = k)) := by
        rw [List.filter_cons]
        simp [hck]
      have hdlen : (t.dropWhile (fun c => !cmpLt c.key k)).length ≤ t.length :=
        (List.dropWhile_sublist _).length_le
      have := ih hsc.2 (fun x hx => hle x (by simp [hx]))
      rw [hd, hf]
      simp only [List.length_cons]
      omega

/-- Splitting a list at a valid index. -/
theorem split_at_getD (cols : List Col) (i : Nat) (hi : i < cols.length) :
    cols = cols.take i ++ (cols.getD i default) :: cols.drop (i + 1) := by
  rw [getD_eq_getElem' cols i hi]
  rw [← List.drop_eq_getElem_cons hi, List.take_append_drop]

/-- A strictly sorted list holds at most one element of any key. -/
theorem filter_key_len_le_one (cols : List Col) (hst : SortedLt cols) (k : Key) :
    (cols.filter (fun c => decide (c.key = k))).length ≤ 1 := by
  induction cols with
  | nil => simp
  | cons c t ih =>
    have hsc := List.pairwise_cons.mp hst
    rw [List.filter_cons]
    cases hck : decide (c.key = k) with
    | false => simpa using ih hsc.2
    | true =>
      simp only [decide_eq_true_eq] at hck
      have hf : t.filter (fun c => decide (c.key = k)) = [] := by
        rw [List.filter_eq_nil_iff]
        intro x hx
        have := hsc.1 x hx
        simp only [decide_eq_true_eq]
        intro hc
        rw [hc, hck] at this
        exact absurd this (lt_irrefl k)
      simp [hf]

/-- C3: on a well-formed container, `erase(k)` returns the number of
stored entries whose key is equivalent to `k` (`0` when `k` is absent),
the size decreases by exactly the return value, and for a MAP (strictly
sorted bottom list) the return value is `0` or `1`. -/
theorem erase_correct (s : SL) (hwf : WF s) (k : Key) :
    (erase s k).2 = (s.cols.filter (fun c => decide (c.key = k))).length ∧
    (erase s k).1.count + (erase s k).2 = s.count ∧
    (SortedLt s.cols → (erase s k).2 ≤ 1) := by
  cases hfr : findRecursive s.cols k s.levelCount 0 with
  | none =>
    have habs : ∀ c ∈ s.cols, c.key ≠ k := by
      intro c hc hck
      have hex := (exists_key_iff_mem s.cols k).mpr ⟨c, hc, hck⟩
      have := (findRecursive_isSome_iff s.cols k s.levelCount
        hwf.sorted hwf.heights hwf.level_pos).mpr hex
      rw [hfr] at this
      exact absurd this (by simp)
    have hf : s.cols.filter (fun c => decide (c.key = k)) = [] := by
      rw [List.filter_eq_nil_iff]
      intro x hx
      simpa using habs x hx
    have herase : erase s k = (s, 0) := by
      rw [erase, hfr]
    rw [herase, hf]
    exact ⟨rfl, rfl, fun _ => by simp⟩
  | some i =>
    have hsound := findRecursive_some_spec s.cols k s.levelCount 0 i hfr
    have hi := hsound.1
    have hkey := hsound.2
    have hlleft : (s.cols.take i).length = i := by rw [List.length_take]; omega
    have hlright : (s.cols.drop (i + 1)).length = s.cols.length - (i + 1) :=
      List.length_drop _ _
    have hrsorted : SortedLe (s.cols.drop (i + 1)) :=
      hwf.sorted.sublist (List.drop_sublist _ _)
    have hrge : ∀ c ∈ s.cols.drop (i + 1), k ≤ c.key := by
      intro c hc
      rcases mem_drop_getD s.cols (i + 1) c hc with ⟨j, hj1, hj2, rfl⟩
      have := sortedLe_getD hwf.sorted i j (by omega) hj2
      rw [hkey] at this
      exact this
    have hR := dropWhile_right_run k (s.cols.drop (i + 1)) hrsorted hrge
    have hlsorted : List.Pairwise (fun a b => b.key ≤ a.key) (s.cols.take i).reverse := by
      rw [List.pairwise_reverse]
      exact hwf.sorted.sublist (List.take_sublist _ _)
    have hlle : ∀ c ∈ (s.cols.take i).reverse, c.key ≤ k := by
      intro c hc
      rw [List.mem_reverse] at hc
      rcases mem_take_getD s.cols i c hc with ⟨j, hj1, hj2, rfl⟩
      have := sortedLe_getD hwf.sorted j i (by omega) hi
      rw [hkey] at this
      exact this
    have hL := dropWhile_left_run k (s.cols.take i).reverse hlsorted hlle
    rw [List.length_reverse] at hL
    have hfleft :
        ((s.cols.take i).reverse.filter (fun c => decide (c.key = k))).length =
          ((s.cols.take i).filter (fun c => decide (c.key = k))).length := by
      rw [List.filter_reverse, List.length_reverse]
    rw [hfleft] at hL
    have hsplit := split_at_getD s.cols i hi
    have hfsplit : (s.cols.filter (fun c => decide (c.key = k))).length =
        ((s.cols.take i).filter (fun c => decide (c.key = k))).length + 1 +
          ((s.cols.drop (i + 1)).filter (fun c => decide (c.key = k))).length := by
      conv_lhs => rw [hsplit]
      rw [List.filter_append, List.filter_cons]
      have hdec : (decide ((s.cols.getD i default).key = k)) = true := by
        simp only [decide_eq_true_eq]
        exact hkey
      rw [hdec, if_pos rfl]
      simp only [List.length_append, List.length_cons]
      omega
    have hkeptlen :
        (((s.cols.take i).reverse.dropWhile (fun c => !cmpLt c.key k)).reverse).length ≤
          (s.cols.take i).length := by
      rw [List.length_reverse]
      have := (List.dropWhile_sublist
        (l := (s.cols.take i).reverse) (fun c => !cmpLt c.key k)).length_le
      rw [List.length_reverse] at this
      exact this
    have hkeptrlen :
        ((s.cols.drop (i + 1)).dropWhile (fun c => !cmpLt k c.key)).length ≤
          (s.cols.drop (i + 1)).length :=
      (List.dropWhile_sublist _).length_le
    have herase : erase s k =
        (shrinkLevels
          { s with
              cols :=
                ((s.cols.take i).reverse.dropWhile (fun c => !cmpLt c.key k)).reverse ++
                  (s.cols.drop (i + 1)).dropWhile (fun c => !cmpLt k c.key),
              count := s.count - (eraseKeyRecursive s.cols i k).2,
              balanced := false },
          (eraseKeyRecursive s.cols i k).2) := by
      rw [erase, hfr]
      rfl
    have hnum : (eraseKeyRecursive s.cols i k).2 =
        (s.cols.filter (fun c => decide (c.key = k))).length := by
      rw [eraseKeyRecursive]
      simp only [List.length_reverse]
      omega
    have hle1 : (s.cols.filter (fun c => decide (c.key = k))).length ≤
        s.cols.length := (List.filter_sublist _).length_le
    refine ⟨?_, ?_, ?_⟩
    · rw [herase, hnum]
    · rw [herase]
      simp only [shrinkLevels_count]
      rw [hnum, hwf.count_eq]
      omega
    · intro hst
      rw [herase, hnum]
      exact filter_key_len_le_one s.cols hst k

/-- Unfolding of the trailing-zero loop. -/
theorem calcBalancedLevelLoop_eq (i : Nat) :
    calcBalancedLevelLoop i =
      if i % 2 = 0 ∧ 0 < i then calcBalancedLevelLoop (i / 2) + 1 else 1 := by
  rw [calcBalancedLevelLoop]

/-- The `calcBalancedLevel` division loop computes one plus the 2-adic
valuation (the number of trailing zero bits). -/
theorem calcBalancedLevelLoop_eq_padic (i : Nat) (hi : 0 < i) :
    calcBalancedLevelLoop i = padicValNat 2 i + 1 := by
  induction i using Nat.strong_induction_on with
  | _ i ih =>
    rcases Nat.eq_zero_or_pos i with rfl | hpos
    · omega
    by_cases hpar : i % 2 = 0
    · have h2 : i = 2 * (i / 2) := by omega
      have hhalf : 0 < i / 2 := by omega
      rw [calcBalancedLevelLoop_eq, if_pos ⟨hpar, hpos⟩,
        ih (i / 2) (by omega) hhalf]
      have : padicValNat 2 i = 1 + padicValNat 2 (i / 2) := by
        conv_lhs => rw [h2]
        rw [padicValNat.mul (by norm_num) (by omega)]
        congr 1
        exact padicValNat.self (by norm_num)
      omega
    · rw [calcBalancedLevelLoop_eq, if_neg (by omega)]
      have : padicValNat 2 i = 0 := by
        rw [padicValNat.eq_zero_iff]
        right; right
        omega
      omega

/-- The rebuilding loop preserves the length of the bottom list. -/
theorem rebalanceColsAux_length (L : Nat) :
    ∀ (st : Nat) (l : List Col), (rebalanceColsAux L st l).length = l.length := by
  intro st l
  induction l generalizing st with
  | nil => rfl
  | cons c t ih => simp [rebalanceColsAux, ih]

/-- The rebuilding loop preserves the entry sequence. -/
theorem rebalanceColsAux_map_entry (L : Nat) :
    ∀ (st : Nat) (l : List Col),
      (rebalanceColsAux L st l).map Col.entry = l.map Col.entry := by
  intro st l
  induction l generalizing st with
  | nil => rfl
  | cons c t ih => simp [rebalanceColsAux, ih]

/-- Column heights after the rebuilding loop. -/
theorem rebalanceColsAux_getD (L : Nat) :
    ∀ (l : List Col) (st j : Nat), j < l.length →
      (rebalanceColsAux L st l).getD j default =
        ⟨(l.getD j default).entry, calcBalancedLevel L (st + j)⟩ := by
  intro l
  induction l with
  | nil => intro st j hj; simp at hj
  | cons c t ih =>
    intro st j hj
    cases j with
    | zero => simp [rebalanceColsAux]
    | succ j =>
      simp only [rebalanceColsAux, List.getD_cons_succ]
      rw [ih (st + 1) j (by simpa using hj)]
      congr 2
      omega

/-- C4: after `balance()` the element at 1-based index `i` of the bottom
list belongs to exactly `1 + v2(i)` lists (`v2` = 2-adic valuation), the
head/dummy column spans `level_count` lists (`calcBalancedLevel` maps
index `0` to the level count), `is_balanced()` is true, and the sequence
of entries is unchanged; on a container whose flag is already true,
`balance()` changes nothing.  The hypothesis `hbal` is the container's
documented invariant that a set flag reflects balanced column heights. -/
theorem balance_correct (s : SL) (hwf : WF s)
    (hbal : s.balanced = true → ∀ j, j < s.cols.length →
      (s.cols.getD j default).h = calcBalancedLevel s.levelCount (j + 1)) :
    (∀ j, j < (balance s).cols.length →
      ((balance s).cols.getD j default).h = padicValNat 2 (j + 1) + 1) ∧
    calcBalancedLevel (balance s).levelCount 0 = (balance s).levelCount ∧
    (balance s).balanced = true ∧
    (balance s).cols.map Col.entry = s.cols.map Col.entry ∧
    (s.balanced = true → balance s = s) := by
  have hcalc : ∀ (L j : Nat), calcBalancedLevel L (j + 1) = padicValNat 2 (j + 1) + 1 := by
    intro L j
    rw [calcBalancedLevel, if_neg (by omega)]
    exact calcBalancedLevelLoop_eq_padic (j + 1) (by omega)
  cases hb : s.balanced with
  | true =>
    have hid : balance s = s := by rw [balance, if_pos hb]
    rw [hid]
    refine ⟨?_, ?_, hb, rfl, fun _ => rfl⟩
    · intro j hj
      rw [hbal hb j hj, hcalc]
    · rw [calcBalancedLevel, if_pos rfl]
  | false =>
    by_cases hL : s.levelCount = 0
    · have hcols : s.cols = [] := by
        by_contra hc
        have := hwf.level_pos hc
        omega
      have hid : balance s = { s with balanced := true } := by
        rw [balance, if_neg (by rw [hb]; simp), if_pos hL]
      rw [hid]
      refine ⟨?_, ?_, rfl, rfl, fun hc => Bool.noConfusion hc⟩
      · intro j hj
        simp only [] at hj
        rw [hcols] at hj
        simp at hj
      · rw [calcBalancedLevel, if_pos rfl]
    · have hid : balance s =
          { s with balanced := true, cols := rebalanceCols s.levelCount s.cols } := by
        rw [balance, if_neg (by rw [hb]; simp), if_neg hL]
      rw [hid]
      refine ⟨?_, ?_, rfl, ?_, fun hc => Bool.noConfusion hc⟩
      · intro j hj
        simp only [rebalanceCols] at hj ⊢
        rw [rebalanceColsAux_length] at hj
        rw [rebalanceColsAux_getD s.levelCount s.cols 1 j hj]
        simp only []
        rw [Nat.add_comm 1 j, hcalc]
      · rw [calcBalancedLevel, if_pos rfl]
      · simp only [rebalanceCols]
        exact rebalanceColsAux_map_entry s.levelCount 1 s.cols

/-- Witness for C4 at a concrete unbalanced container. -/
theorem balance_correct_witness :
    WF sampleC ∧
      ((∀ j, j < (balance sampleC).cols.length →
        ((balance sampleC).cols.getD j default).h = padicValNat 2 (j + 1) + 1) ∧
      calcBalancedLevel (balance sampleC).levelCount 0 = (balance sampleC).levelCount ∧
      (balance sampleC).balanced = true ∧
      (balance sampleC).cols.map Col.entry = sampleC.cols.map Col.entry ∧
      (sampleC.balanced = true → balance sampleC = sampleC)) :=
  ⟨by decide, balance_correct sampleC (by decide) (fun h => Bool.noConfusion h)⟩

/-- Witness for C3 at a concrete container and key. -/
theorem erase_correct_witness :
    WF sampleA ∧
      ((erase sampleA 3).2 =
          (sampleA.cols.filter (fun c => decide (c.key = 3))).length ∧
        (erase sampleA 3).1.count + (erase sampleA 3).2 = sampleA.count ∧
        (SortedLt sampleA.cols → (erase sampleA 3).2 ≤ 1)) :=
  ⟨by decide, erase_correct sampleA (by decide) 3⟩

/-- C10: `clear()` resets every field of the container to its
default-constructed state — no columns, zero size and level count, zero
thresholds, `is_balanced` true — except the pseudo-random source, which
keeps the state it had before the call. -/
theorem clear_resets_all_but_rng (s : SL) :
    clear s =
      { cols := [], levelCount := 0, count := 0, countMin := 0, countMax := 0,
        balanced := true, rng := s.rng } := rfl

/-- `m_countMin` as a division, avoiding the case split of `countMinFor`. -/
theorem countMinFor_eq_div (L : Nat) : countMinFor L = 2 ^ L / 2 := by
  unfold countMinFor
  cases L with
  | zero => rfl
  | succ n =>
    rw [if_neg (Nat.succ_ne_zero n), Nat.add_sub_cancel, pow_succ]
    omega

/-- A power of two split into the cases omega can reason with. -/
theorem two_pow_split (L : Nat) :
    (L = 0 ∧ 2 ^ L = 1) ∨ (L ≠ 0 ∧ 2 ^ L = 2 ^ (L - 1) * 2) := by
  rcases Nat.eq_zero_or_pos L with hL | hL
  · exact Or.inl ⟨hL, by simp [hL]⟩
  · refine Or.inr ⟨by omega, ?_⟩
    rw [← pow_succ]
    congr 1
    omega

theorem two_pow_pos (L : Nat) : 0 < 2 ^ L := pow_pos (by norm_num) L

theorem countInv_initSL (g : List Nat) : CountInv (initSL g) := by
  unfold CountInv initSL
  simp [countMinFor, countMaxFor]

/-- `insertTopDown` restores the size accounting: growth past `m_countMax`
adds a level first, and the failure path drops a level when the size is
below `m_countMin`. -/
theorem countInv_insertTopDown (s : SL) (mm : Bool) (compare : Key → Key → Bool)
    (k : Key) (v : Val) (h : CountInv s) :
    CountInv (insertTopDown s mm compare k v).1 := by
  obtain ⟨hm, hM, hz, hb⟩ := h
  have h2L := two_pow_split s.levelCount
  have hps : (2 : Nat) ^ (s.levelCount + 1) = 2 ^ s.levelCount * 2 := pow_succ 2 s.levelCount
  have hp := two_pow_pos s.levelCount
  have hp1 := two_pow_pos (s.levelCount - 1)
  simp only [countMinFor_eq_div] at hm
  simp only [countMaxFor] at hM
  unfold insertTopDown chooseLevel
  dsimp only
  split_ifs <;>
    (unfold CountInv
     simp only [addLevel_count, addLevel_levelCount, addLevel_countMin, addLevel_countMax,
       removeLevel_count, removeLevel_levelCount, removeLevel_countMin, removeLevel_countMax,
       countMinFor_eq_div, countMaxFor, Nat.add_sub_cancel, true_and, and_true] at *
     omega)

/-- `insertBottomUp` restores the size accounting the same way. -/
theorem countInv_insertBottomUp (s : SL) (pos : Nat) (k : Key) (v : Val)
    (h : CountInv s) : CountInv (insertBottomUp s pos k v).1 := by
  obtain ⟨hm, hM, hz, hb⟩ := h
  have h2L := two_pow_split s.levelCount
  have hps : (2 : Nat) ^ (s.levelCount + 1) = 2 ^ s.levelCount * 2 := pow_succ 2 s.levelCount
  have hp := two_pow_pos s.levelCount
  simp only [countMinFor_eq_div] at hm
  simp only [countMaxFor] at hM
  unfold insertBottomUp chooseLevel
  dsimp only
  split_ifs <;>
    (unfold CountInv
     simp only [addLevel_count, addLevel_levelCount, addLevel_countMin, addLevel_countMax,
       countMinFor_eq_div, countMaxFor, Nat.add_sub_cancel, true_and, and_true] at *
     omega)

theorem countInv_insertWithHintMultimap (s : SL) (hint : Option Nat) (k : Key) (v : Val)
    (h : CountInv s) : CountInv (insertWithHintMultimap s hint k v).1 := by
  unfold insertWithHintMultimap
  dsimp only
  split_ifs <;>
    first
      | exact countInv_insertTopDown s true
          (fun searchKey nodeKey => !cmpLt nodeKey searchKey) k v h
      | exact countInv_insertTopDown s true
          (fun searchKey nodeKey => cmpLt searchKey nodeKey) k v h
      | exact countInv_insertBottomUp s _ k v h

theorem countInv_insertWithHintMap (s : SL) (hint : Option Nat) (k : Key) (v : Val)
    (h : CountInv s) : CountInv (insertWithHintMap s hint k v).1 := by
  unfold insertWithHintMap
  dsimp only
  split_ifs <;>
    first
      | exact countInv_insertTopDown s false (fun a b => cmpLt a b) k v h
      | exact countInv_insertBottomUp s _ k v h
      | exact h

/-- The level-shrink loop of `erase(key)` reestablishes the size bounds:
it only needs the threshold formulas and the upper bound coming in. -/
theorem countInv_shrinkLevels (s : SL) (hm : s.countMin = countMinFor s.levelCount)
    (hM : s.countMax = countMaxFor s.levelCount) (hc : s.count ≤ s.countMax) :
    CountInv (shrinkLevels s) := by
  induction s using shrinkLevels.induct with
  | case1 s hcond ih =>
    rw [shrinkLevels_eq, if_pos hcond]
    refine ih ?_ ?_ ?_
    · simp
    · simp
    · simp only [removeLevel_count, removeLevel_countMax, countMaxFor]
      rw [hm, countMinFor_eq_div] at hcond
      have h1 : (2 : Nat) ^ s.levelCount = 2 ^ (s.levelCount - 1) * 2 := by
        rw [← pow_succ]
        congr 1
        omega
      omega
  | case2 s hcond =>
    rw [shrinkLevels_eq, if_neg hcond]
    refine ⟨hm, hM, ?_, ?_⟩
    · intro h0
      by_contra hL
      have h1 : s.countMin ≤ s.count := by omega
      have h2 := two_pow_pos (s.levelCount - 1)
      rw [hm] at h1
      unfold countMinFor at h1
      rw [if_neg hL] at h1
      omega
    · intro h0
      refine ⟨?_, hc⟩
      rcases Nat.eq_zero_or_pos s.levelCount with hL | hL
      · rw [hm, hL]
        simp [countMinFor]
      · omega

theorem countInv_erase (s : SL) (k : Key) (h : CountInv s) : CountInv (erase s k).1 := by
  obtain ⟨hm, hM, hz, hb⟩ := h
  unfold erase
  cases hfr : findRecursive s.cols k s.levelCount 0 with
  | none => exact ⟨hm, hM, hz, hb⟩
  | some i =>
    apply countInv_shrinkLevels
    · exact hm
    · exact hM
    · show s.count - (eraseKeyRecursive s.cols i k).2 ≤ s.countMax
      omega

theorem countInv_erasePos (s : SL) (pos : Nat) (h : CountInv s) :
    CountInv (erasePos s pos) := by
  obtain ⟨hm, hM, hz, hb⟩ := h
  have hA := two_pow_split s.levelCount
  have hB := two_pow_split (s.levelCount - 1)
  have hp := two_pow_pos s.levelCount
  have hp1 := two_pow_pos (s.levelCount - 1)
  have hp2 := two_pow_pos (s.levelCount - 1 - 1)
  simp only [countMinFor_eq_div] at hm
  simp only [countMaxFor] at hM
  unfold erasePos
  dsimp only
  split_ifs <;>
    (unfold CountInv
     simp only [removeLevel_count, removeLevel_levelCount, removeLevel_countMin,
       removeLevel_countMax, countMinFor_eq_div, countMaxFor, true_and, and_true] at *
     omega)

theorem countInv_popFront (s : SL) (h : CountInv s) : CountInv (popFront s) := by
  unfold popFront
  split_ifs
  · exact h
  · exact countInv_erasePos s 0 h

theorem countInv_popBack (s : SL) (h : CountInv s) : CountInv (popBack s) := by
  unfold popBack
  split_ifs
  · exact h
  · exact countInv_erasePos s (s.count - 1) h

theorem countInv_clear (s : SL) : CountInv (clear s) := by
  unfold CountInv clear initSL
  simp [countMinFor, countMaxFor]

theorem countInv_balance (s : SL) (h : CountInv s) : CountInv (balance s) := by
  unfold balance
  split_ifs <;> exact h

theorem countInv_iterColBalance (s : SL) (it : BIter) (h : CountInv s) :
    CountInv (iterColBalance s it) := by
  unfold iterColBalance
  cases it.pos <;> exact h

theorem countInv_iterInc (s : SL) (it : BIter) (h : CountInv s) :
    CountInv (iterInc s it).1 := by
  unfold iterInc
  cases it.pos with
  | none => exact h
  | some p =>
    dsimp only
    split_ifs <;>
      first
        | exact h
        | exact countInv_iterColBalance s it h

theorem countInv_iterDecBalance (s : SL) (it1 : BIter) (h : CountInv s) :
    CountInv (iterDec.iterDecBalance s it1).1 := by
  unfold iterDec.iterDecBalance
  dsimp only
  split_ifs <;>
    first
      | exact h
      | exact countInv_iterColBalance s it1 h

theorem countInv_iterDec (s : SL) (it : BIter) (h : CountInv s) :
    CountInv (iterDec s it).1 := by
  unfold iterDec
  cases it.pos with
  | none =>
    dsimp only
    split_ifs
    · exact h
    · exact countInv_iterDecBalance s _ h
  | some p =>
    dsimp only
    exact countInv_iterDecBalance s _ h

/-- Every container reachable by public operations from a default-constructed
instance keeps the size accounting invariant. -/
theorem countInv_reachable (s : SL) (h : Reachable s) : CountInv s := by
  induction h with
  | init g => exact countInv_initSL g
  | stepInsert s mm k v hr ih => exact countInv_insertTopDown s mm _ k v ih
  | stepInsertHintMap s hint k v hok hr ih => exact countInv_insertWithHintMap s hint k v ih
  | stepInsertHintMultimap s hint k v hok hr ih =>
    exact countInv_insertWithHintMultimap s hint k v ih
  | stepErase s k hr ih => exact countInv_erase s k ih
  | stepErasePos s pos hr ih => exact countInv_erasePos s pos ih
  | stepPopFront s hr ih => exact countInv_popFront s ih
  | stepPopBack s hr ih => exact countInv_popBack s ih
  | stepClear s hr ih => exact countInv_clear s
  | stepBalance s hr ih => exact countInv_balance s ih
  | stepIterInc s it hr ih => exact countInv_iterInc s it ih
  | stepIterDec s it hr ih => exact countInv_iterDec s it ih

/-- With `MULTIMAP = true` the insertion check of `insertTopDownRecursive`
always passes, so `insertTopDown` reduces to a plain splice at the
descent's stopping index. -/
theorem insertTopDown_mm_eval (s : SL) (compare : Key → Key → Bool) (k : Key) (v : Val) :
    insertTopDown s true compare k v =
      ({ (if s.count + 1 > s.countMax
            then addLevel { s with rng := s.rng.tail }
            else { s with rng := s.rng.tail }) with
          cols := s.cols.insertIdx
            (descend s.cols (fun c => compare k c.key)
              (if s.count + 1 > s.countMax then s.levelCount + 1 else s.levelCount) 0)
            ⟨(k, v), if s.count + 1 > s.countMax then s.levelCount + 1
                     else min (s.rng.headD 1) s.levelCount⟩,
          count := s.count + 1,
          balanced := false },
        descend s.cols (fun c => compare k c.key)
          (if s.count + 1 > s.countMax then s.levelCount + 1 else s.levelCount) 0,
        true) := by
  by_cases hmax : s.count + 1 > s.countMax <;>
    simp [insertTopDown, chooseLevel, hmax]

/-- `insertBottomUp` splices the new column at the given bottom index,
growing a level when the new size exceeds `m_countMax`. -/
theorem insertBottomUp_eval (s : SL) (pos : Nat) (k : Key) (v : Val) :
    insertBottomUp s pos k v =
      ({ (if s.count + 1 > s.countMax
            then addLevel { s with count := s.count + 1, balanced := false, rng := s.rng.tail }
            else { s with count := s.count + 1, balanced := false, rng := s.rng.tail }) with
          cols := s.cols.insertIdx pos
            ⟨(k, v), if s.count + 1 > s.countMax then s.levelCount + 1
                     else min (s.rng.headD 1) s.levelCount⟩ },
        pos) := by
  by_cases hmax : s.count + 1 > s.countMax <;>
    simp [insertBottomUp, chooseLevel, hmax]

/-- The level count a probabilistic insert descends from is at least one:
either a level was just added, or `m_countMax ≥ 1` forces `m_levelCount ≥ 1`. -/
theorem growLevel_pos (s : SL) (hwf : WF s) :
    1 ≤ if s.count + 1 > s.countMax then s.levelCount + 1 else s.levelCount := by
  split_ifs with h
  · omega
  · have hMeq := hwf.countMax_eq
    have h1 : 1 ≤ s.countMax := by omega
    rw [hMeq] at h1
    by_contra hc
    have h0 : s.levelCount = 0 := by omega
    rw [h0] at h1
    simp [countMaxFor] at h1

/-- The descent with the reversed comparator `!cmp(node, search)` stops at
the lower bound: the index just past the run of keys strictly below `k`. -/
theorem descend_lower_eq (s : SL) (hwf : WF s) (k : Key) (L' : Nat) (hL' : 1 ≤ L') :
    descend s.cols (fun c => !cmpLt c.key k) L' 0 =
      (s.cols.takeWhile (fun c => cmpLt c.key k)).length := by
  rw [descend_eq_takeWhile s.cols _ (monoOn_lower hwf.sorted k) hwf.heights _ hL']
  simp only [Bool.not_not]

/-- The descent with the ordinary comparator stops at the upper bound: the
index just past the run of keys not above `k`. -/
theorem descend_upper_eq (s : SL) (hwf : WF s) (k : Key) (L' : Nat) (hL' : 1 ≤ L') :
    descend s.cols (fun c => cmpLt k c.key) L' 0 =
      (s.cols.takeWhile (fun c => !cmpLt k c.key)).length := by
  rw [descend_eq_takeWhile s.cols _ (monoOn_upper hwf.sorted k) hwf.heights _ hL']

/-- C5: for a MULTIMAP, hinted insert with hint cursor `b` (predecessor
`a = b.prev`, or the tail when `b` is the end iterator) always splices a
new column carrying `(k, v)` at the returned bottom index; that index is
the slot directly between `a` and `b` iff the hint is good (`badF = false`
and `badB = false`, i.e. `a` is absent or `!cmp(k, a.key)`, and `b` is
absent or `!cmp(b.key, k)`); on a bad hint with `b.key < k` it is the
lower bound of the run of keys equivalent to `k` (descent with the
reversed comparator), and on a bad hint with `k < a.key` it is the upper
bound (descent with the ordinary comparator). -/
theorem multimap_hinted_insert_correct (s : SL) (hint : Option Nat) (k : Key) (v : Val)
    (hwf : WF s)
    (aIdx : Option Nat) (badF badB : Bool) (pos : Nat)
    (h : aIdx = (match hint with
          | some i => if i = 0 then none else some (i - 1)
          | none => if s.count = 0 then none else some (s.count - 1)) ∧
        badF = (match hint with
          | some i => cmpLt (s.cols.getD i default).key k
          | none => false) ∧
        badB = (match aIdx with
          | some j => cmpLt k (s.cols.getD j default).key
          | none => false) ∧
        pos = (match aIdx with
          | some j => j + 1
          | none => 0))
    (hok : HintOk s hint) :
    (∃ lvl, (insertWithHintMultimap s hint k v).1.cols =
      s.cols.insertIdx (insertWithHintMultimap s hint k v).2 ⟨(k, v), lvl⟩) ∧
    (badF = false → badB = false → (insertWithHintMultimap s hint k v).2 = pos) ∧
    (badF = true →
      (insertWithHintMultimap s hint k v).2 =
        (s.cols.takeWhile (fun c => cmpLt c.key k)).length) ∧
    (badF = false → badB = true →
      (insertWithHintMultimap s hint k v).2 =
        (s.cols.takeWhile (fun c => !cmpLt k c.key)).length) := by
  obtain ⟨ha, hf, hb, hpos⟩ := h
  subst ha
  subst hf
  subst hb
  subst hpos
  clear hok
  cases hbF : (match hint with
      | some i => cmpLt (s.cols.getD i default).key k
      | none => false) with
  | false =>
    cases hbB : (match (match hint with
          | some i => if i = 0 then none else some (i - 1)
          | none => if s.count = 0 then none else some (s.count - 1)) with
        | some j => cmpLt k (s.cols.getD j default).key
        | none => false) with
    | false =>
      -- good hint: splice between a and b via insertBottomUp
      have hr : insertWithHintMultimap s hint k v =
          insertBottomUp s
            (match (match hint with
                | some i => if i = 0 then none else some (i - 1)
                | none => if s.count = 0 then none else some (s.count - 1)) with
              | some j => j + 1
              | none => 0) k v := by
        unfold insertWithHintMultimap
        dsimp only
        rw [hbF, hbB]
        simp
      refine ⟨?_, ?_, ?_, ?_⟩
      · refine ⟨if s.count + 1 > s.countMax then s.levelCount + 1
          else min (s.rng.headD 1) s.levelCount, ?_⟩
        rw [hr, insertBottomUp_eval]
      · intro _ _
        rw [hr, insertBottomUp_eval]
      · intro h1
        exact Bool.noConfusion h1
      · intro _ h1
        exact Bool.noConfusion h1
    | true =>
      -- bad backward hint: upper-bound insertion
      have hr : insertWithHintMultimap s hint k v =
          ((insertTopDown s true (fun searchKey nodeKey => cmpLt searchKey nodeKey) k v).1,
           (insertTopDown s true (fun searchKey nodeKey => cmpLt searchKey nodeKey) k v).2.1) := by
        unfold insertWithHintMultimap
        dsimp only
        rw [hbF, hbB]
        simp
      refine ⟨?_, ?_, ?_, ?_⟩
      · refine ⟨if s.count + 1 > s.countMax then s.levelCount + 1
          else min (s.rng.headD 1) s.levelCount, ?_⟩
        rw [hr, insertTopDown_mm_eval]
      · intro _ h1
        exact Bool.noConfusion h1
      · intro h1
        exact Bool.noConfusion h1
      · intro _ _
        rw [hr, insertTopDown_mm_eval]
        show descend s.cols (fun c => cmpLt k c.key)
            (if s.count + 1 > s.countMax then s.levelCount + 1 else s.levelCount) 0 = _
        exact descend_upper_eq s hwf k _ (growLevel_pos s hwf)
  | true =>
    -- bad forward hint: lower-bound insertion
    have hr : insertWithHintMultimap s hint k v =
        ((insertTopDown s true (fun searchKey nodeKey => !cmpLt nodeKey searchKey) k v).1,
         (insertTopDown s true (fun searchKey nodeKey => !cmpLt nodeKey searchKey) k v).2.1) := by
      unfold insertWithHintMultimap
      dsimp only
      rw [hbF]
      simp
    refine ⟨?_, ?_, ?_, ?_⟩
    · refine ⟨if s.count + 1 > s.countMax then s.levelCount + 1
        else min (s.rng.headD 1) s.levelCount, ?_⟩
      rw [hr, insertTopDown_mm_eval]
    · intro h1 _
      exact Bool.noConfusion h1
    · intro _
      rw [hr, insertTopDown_mm_eval]
      show descend s.cols (fun c => !cmpLt c.key k)
          (if s.count + 1 > s.countMax then s.levelCount + 1 else s.levelCount) 0 = _
      exact descend_lower_eq s hwf k _ (growLevel_pos s hwf)
    · intro h1 _
      exact Bool.noConfusion h1

/-- Witness for C5: a good hint on a concrete two-element multimap. -/
theorem multimap_hinted_insert_correct_witness :
    (WF sampleD ∧ HintOk sampleD (some 1)) ∧
    ((∃ lvl, (insertWithHintMultimap sampleD (some 1) 2 9).1.cols =
        sampleD.cols.insertIdx (insertWithHintMultimap sampleD (some 1) 2 9).2 ⟨(2, 9), lvl⟩) ∧
     (false = false → false = false → (insertWithHintMultimap sampleD (some 1) 2 9).2 = 1) ∧
     (false = true →
        (insertWithHintMultimap sampleD (some 1) 2 9).2 =
          (sampleD.cols.takeWhile (fun c => cmpLt c.key 2)).length) ∧
     (false = false → false = true →
        (insertWithHintMultimap sampleD (some 1) 2 9).2 =
          (sampleD.cols.takeWhile (fun c => !cmpLt 2 c.key)).length)) := by
  have hok : HintOk sampleD (some 1) := by
    intro i hi
    simp only [Option.some.injEq] at hi
    subst hi
    decide
  exact ⟨⟨by decide, hok⟩,
    multimap_hinted_insert_correct sampleD (some 1) 2 9 (by decide)
      (some 0) false false 1 ⟨by decide, by decide, by decide, by decide⟩ hok⟩

/-- On a balanced container every node index below `2^L` needs at most `L`
lists, so the balancing iterator's `insertAbove` never hits the top. -/
theorem calcBalancedLevelLoop_le (L i : Nat) (h0 : 0 < i) (hi : i < 2 ^ L) :
    calcBalancedLevelLoop i ≤ L := by
  rw [calcBalancedLevelLoop_eq_padic i h0]
  have hdvd : 2 ^ padicValNat 2 i ∣ i := pow_padicValNat_dvd
  have h1 : 2 ^ padicValNat 2 i ≤ i := Nat.le_of_dvd h0 hdvd
  by_contra hc
  have hLv : L ≤ padicValNat 2 i := by omega
  have h2 : 2 ^ L ≤ 2 ^ padicValNat 2 i := Nat.pow_le_pow_right (by norm_num) hLv
  omega

/-- Same bound through `calcBalancedLevel` for positive node indices. -/
theorem calcBalancedLevel_le (L i : Nat) (h0 : 0 < i) (hi : i < 2 ^ L) :
    calcBalancedLevel L i ≤ L := by
  rw [calcBalancedLevel, if_neg (by omega)]
  exact calcBalancedLevelLoop_le L i h0 hi

/-- Setting the column at the frontier of a partially rebalanced bottom
list to its balanced column advances the frontier by one (forward sweep). -/
theorem set_take_drop_step (R cols : List Col) (hlen : R.length = cols.length)
    (m : Nat) (hm : m < cols.length) :
    (R.take m ++ cols.drop m).set m (R.getD m default) =
      R.take (m + 1) ++ cols.drop (m + 1) := by
  have hmR : m < R.length := by omega
  have htl : (R.take m).length = m := by
    simp
    omega
  rw [List.set_append_right _ _ (by omega : (R.take m).length ≤ m)]
  have h0 : m - (R.take m).length = 0 := by omega
  rw [h0, List.drop_eq_getElem_cons hm, List.set_cons_zero]
  rw [getD_eq_getElem' R m hmR]
  rw [List.take_succ, List.getElem?_eq_getElem hmR]
  simp only [Option.toList_some]
  rw [List.append_assoc, List.singleton_append]

/-- The mirrored step for the backward sweep: balancing the column just
before the balanced suffix extends the suffix by one. -/
theorem set_take_drop_back (R cols : List Col) (hlen : R.length = cols.length)
    (q : Nat) (hq : q < cols.length) :
    (cols.take (q + 1) ++ R.drop (q + 1)).set q (R.getD q default) =
      cols.take q ++ R.drop q := by
  have hqR : q < R.length := by omega
  rw [List.take_succ, List.getElem?_eq_getElem hq]
  simp only [Option.toList_some]
  rw [List.append_assoc, List.singleton_append]
  have htl : (cols.take q).length = q := by
    simp
    omega
  rw [List.set_append_right _ _ (by omega : (cols.take q).length ≤ q)]
  have h0 : q - (cols.take q).length = 0 := by omega
  rw [h0, List.set_cons_zero]
  rw [List.drop_eq_getElem_cons hqR, getD_eq_getElem' R q hqR]

/-- The column at the frontier of a partially rebalanced list is the
original column. -/
theorem pb_getD (R cols : List Col) (hlen : R.length = cols.length)
    (m : Nat) (hm : m < cols.length) :
    (R.take m ++ cols.drop m).getD m default = cols.getD m default := by
  have htl : (R.take m).length = m := by
    simp
    omega
  have h := getD_append_length (R.take m) (cols.drop m)
  rw [htl] at h
  rw [h, List.drop_eq_getElem_cons hm]
  rw [List.getD_cons_zero, getD_eq_getElem' cols m hm]

/-- One `operator++` of an actively balancing forward sweep: rebuild the
current column to its balanced height, advance, and set the container's
flag when the walk falls off the end. -/
theorem iterInc_compute (s : SL) (hwf : WF s) (hne : s.cols ≠ []) (m : Nat)
    (hm : m < s.cols.length) :
    iterInc { s with cols := (rebalanceCols s.levelCount s.cols).take m ++ s.cols.drop m }
        ⟨some m, m, false, StartLocation.BEGINNING⟩ =
      (if m + 1 < s.cols.length then
        ({ s with cols :=
            (rebalanceCols s.levelCount s.cols).take (m + 1) ++ s.cols.drop (m + 1) },
          ⟨some (m + 1), m + 1, false, StartLocation.BEGINNING⟩)
      else
        ({ s with
            cols := (rebalanceCols s.levelCount s.cols).take (m + 1) ++ s.cols.drop (m + 1),
            balanced := true },
          ⟨none, m + 1, true, StartLocation.BEGINNING⟩)) := by
  have hlen : (rebalanceCols s.levelCount s.cols).length = s.cols.length := by
    simp only [rebalanceCols]
    exact rebalanceColsAux_length s.levelCount 1 s.cols
  have hcount : 0 < s.count := by
    rw [hwf.count_eq]
    rcases Nat.eq_zero_or_pos s.cols.length with h | h
    · exact absurd (List.length_eq_zero.mp h) hne
    · exact h
  have hmax : s.cols.length ≤ 2 ^ s.levelCount - 1 := by
    have h1 := (hwf.bounds hcount).2
    rw [hwf.count_eq, hwf.countMax_eq] at h1
    simpa [countMaxFor] using h1
  have hdes : calcBalancedLevel s.levelCount (m + 1) ≤ s.levelCount := by
    have hp := two_pow_pos s.levelCount
    exact calcBalancedLevel_le s.levelCount (m + 1) (by omega) (by omega)
  have hRm : (rebalanceCols s.levelCount s.cols).getD m default =
      ⟨(s.cols.getD m default).entry, calcBalancedLevel s.levelCount (m + 1)⟩ := by
    simp only [rebalanceCols]
    rw [rebalanceColsAux_getD s.levelCount s.cols 1 m hm]
    rw [Nat.add_comm 1 m]
  have hcol : iterColBalance
      { s with cols := (rebalanceCols s.levelCount s.cols).take m ++ s.cols.drop m }
      ⟨some m, m, false, StartLocation.BEGINNING⟩ =
      { s with cols :=
          (rebalanceCols s.levelCount s.cols).take (m + 1) ++ s.cols.drop (m + 1) } := by
    unfold iterColBalance
    dsimp only
    rw [pb_getD _ _ hlen m hm]
    have hnewH : (if calcBalancedLevel s.levelCount (m + 1) ≤ (s.cols.getD m default).h
        then calcBalancedLevel s.levelCount (m + 1)
        else min (calcBalancedLevel s.levelCount (m + 1)) s.levelCount) =
        calcBalancedLevel s.levelCount (m + 1) := by
      split_ifs
      · rfl
      · exact Nat.min_eq_left hdes
    rw [hnewH]
    rw [← hRm, set_take_drop_step _ _ hlen m hm]
  have hplen : ((rebalanceCols s.levelCount s.cols).take (m + 1) ++
      s.cols.drop (m + 1)).length = s.cols.length := by
    simp
    omega
  unfold iterInc
  dsimp only
  rw [if_neg (by simp : ¬(false = true))]
  rw [hcol]
  dsimp only
  rw [hplen]
  by_cases hadv : m + 1 < s.cols.length
  · rw [if_pos hadv]
    rw [if_neg (by simp)]
    rw [if_pos hadv]
  · rw [if_neg hadv]
    rw [if_pos (by simp)]
    rw [if_neg hadv]

/-- Induction along the tail of a forward sweep already balanced up to
frontier `m`: the remaining steps finish the rebuild and set the flag. -/
theorem iterateInc_balance_aux (s : SL) (hwf : WF s) (hne : s.cols ≠ []) :
    ∀ r m, 1 ≤ r → m + r = s.cols.length →
      iterateInc r
        ({ s with cols := (rebalanceCols s.levelCount s.cols).take m ++ s.cols.drop m },
          ⟨some m, m, false, StartLocation.BEGINNING⟩) =
        ({ s with cols := rebalanceCols s.levelCount s.cols, balanced := true },
          ⟨none, s.cols.length, true, StartLocation.BEGINNING⟩) := by
  have hlen : (rebalanceCols s.levelCount s.cols).length = s.cols.length := by
    simp only [rebalanceCols]
    exact rebalanceColsAux_length s.levelCount 1 s.cols
  intro r
  induction r with
  | zero => intro m h1 h2; omega
  | succ r ih =>
    intro m h1 h2
    rw [iterateInc]
    rw [iterInc_compute s hwf hne m (by omega)]
    rcases Nat.eq_zero_or_pos r with hr | hr
    · subst hr
      rw [if_neg (by omega)]
      rw [iterateInc]
      have hall : (rebalanceCols s.levelCount s.cols).take (m + 1) =
          rebalanceCols s.levelCount s.cols :=
        List.take_of_length_le (by omega)
      have hnil : s.cols.drop (m + 1) = [] := by
        rw [List.drop_eq_nil_iff_le]
        omega
      rw [hall, hnil, List.append_nil]
      have hm1 : m + 1 = s.cols.length := by omega
      rw [hm1]
    · rw [if_pos (by omega)]
      exact ih (m + 1) hr (by omega)

/-- One `operator--` of an actively balancing backward sweep strictly
inside the list: step left, rebuild the new current column, and set the
flag on arriving at the first element. -/
theorem iterDec_compute (s : SL) (hwf : WF s) (hne : s.cols ≠ []) (p : Nat)
    (hp : p < s.cols.length) :
    iterDec { s with cols := s.cols.take (p + 1) ++ (rebalanceCols s.levelCount s.cols).drop (p + 1) }
        ⟨some (p + 1), p + 1, false, StartLocation.END⟩ =
      (if p = 0 then
        ({ s with cols := rebalanceCols s.levelCount s.cols, balanced := true },
          ⟨some 0, 0, true, StartLocation.END⟩)
      else
        ({ s with cols := s.cols.take p ++ (rebalanceCols s.levelCount s.cols).drop p },
          ⟨some p, p, false, StartLocation.END⟩)) := by
  have hlen : (rebalanceCols s.levelCount s.cols).length = s.cols.length := by
    simp only [rebalanceCols]
    exact rebalanceColsAux_length s.levelCount 1 s.cols
  have hcount : 0 < s.count := by
    rw [hwf.count_eq]
    rcases Nat.eq_zero_or_pos s.cols.length with h | h
    · exact absurd (List.length_eq_zero.mp h) hne
    · exact h
  have hmax : s.cols.length ≤ 2 ^ s.levelCount - 1 := by
    have h1 := (hwf.bounds hcount).2
    rw [hwf.count_eq, hwf.countMax_eq] at h1
    simpa [countMaxFor] using h1
  have hdes : calcBalancedLevel s.levelCount (p + 1) ≤ s.levelCount := by
    have hpow := two_pow_pos s.levelCount
    exact calcBalancedLevel_le s.levelCount (p + 1) (by omega) (by omega)
  have hRp : (rebalanceCols s.levelCount s.cols).getD p default =
      ⟨(s.cols.getD p default).entry, calcBalancedLevel s.levelCount (p + 1)⟩ := by
    simp only [rebalanceCols]
    rw [rebalanceColsAux_getD s.levelCount s.cols 1 p hp]
    rw [Nat.add_comm 1 p]
  have hgd : (s.cols.take (p + 1) ++
      (rebalanceCols s.levelCount s.cols).drop (p + 1)).getD p default =
      s.cols.getD p default := by
    have h1 : p < (s.cols.take (p + 1)).length := by
      simp
      omega
    rw [getD_append_left _ _ p h1]
    rw [getD_eq_getElem' _ p h1, List.getElem_take]
    rw [getD_eq_getElem' s.cols p hp]
  have hcol : iterColBalance
      { s with cols := s.cols.take (p + 1) ++ (rebalanceCols s.levelCount s.cols).drop (p + 1) }
      ⟨some p, p, false, StartLocation.END⟩ =
      { s with cols := s.cols.take p ++ (rebalanceCols s.levelCount s.cols).drop p } := by
    unfold iterColBalance
    dsimp only
    rw [hgd]
    have hnewH : (if calcBalancedLevel s.levelCount (p + 1) ≤ (s.cols.getD p default).h
        then calcBalancedLevel s.levelCount (p + 1)
        else min (calcBalancedLevel s.levelCount (p + 1)) s.levelCount) =
        calcBalancedLevel s.levelCount (p + 1) := by
      split_ifs
      · rfl
      · exact Nat.min_eq_left hdes
    rw [hnewH]
    rw [← hRp, set_take_drop_back _ _ hlen p hp]
  unfold iterDec
  dsimp only
  rw [if_pos (by omega : 1 ≤ p + 1)]
  unfold iterDec.iterDecBalance
  dsimp only
  rw [if_neg (by simp : ¬(false = true))]
  rw [Nat.add_sub_cancel]
  rw [hcol]
  by_cases hp0 : p = 0
  · subst hp0
    rw [if_pos (by simp)]
    have hR : s.cols.take 0 ++ (rebalanceCols s.levelCount s.cols).drop 0 =
        rebalanceCols s.levelCount s.cols := by simp
    rw [hR]
    simp
  · rw [if_neg (by simp [hp0])]
    rw [if_neg hp0]

/-- Induction along a backward sweep whose balanced suffix starts at the
current position: the remaining steps reach the head and set the flag. -/
theorem iterateDec_balance_aux (s : SL) (hwf : WF s) (hne : s.cols ≠ []) :
    ∀ p, 0 < p → p < s.cols.length →
      iterateDec p
        ({ s with cols := s.cols.take p ++ (rebalanceCols s.levelCount s.cols).drop p },
          ⟨some p, p, false, StartLocation.END⟩) =
        ({ s with cols := rebalanceCols s.levelCount s.cols, balanced := true },
          ⟨some 0, 0, true, StartLocation.END⟩) := by
  intro p
  induction p with
  | zero => intro h1 h2; omega
  | succ q ih =>
    intro h1 h2
    rw [iterateDec]
    rw [iterDec_compute s hwf hne q (by omega)]
    rcases Nat.eq_zero_or_pos q with hq | hq
    · subst hq
      rw [if_pos rfl]
      rw [iterateDec]
    · rw [if_neg (by omega)]
      exact ih hq (by omega)

/-- `operator++` of a sweep whose balancing is switched off moves the
cursor but leaves the container alone. -/
theorem iterInc_dont (s : SL) (it : BIter) (hd : it.dontBalance = true) :
    (iterInc s it).1 = s ∧ (iterInc s it).2.dontBalance = true := by
  unfold iterInc
  cases hp : it.pos with
  | none => exact ⟨rfl, hd⟩
  | some p =>
    dsimp only
    rw [hd]
    simp [hd]

/-- `operator--` of a sweep whose balancing is switched off moves the
cursor but leaves the container alone. -/
theorem iterDec_dont (s : SL) (it : BIter) (hd : it.dontBalance = true) :
    (iterDec s it).1 = s ∧ (iterDec s it).2.dontBalance = true := by
  unfold iterDec
  cases hp : it.pos with
  | none =>
    dsimp only
    split_ifs with h
    · exact ⟨rfl, hd⟩
    · unfold iterDec.iterDecBalance
      rw [if_pos (by simp [hd])]
      exact ⟨rfl, hd⟩
  | some p =>
    dsimp only
    unfold iterDec.iterDecBalance
    split_ifs with h <;>
      first
        | exact ⟨rfl, hd⟩
        | (rw [if_pos (by simp [hd])]; exact ⟨rfl, hd⟩)

/-- Forward iteration without balancing never touches the container. -/
theorem iterateInc_dont (n : Nat) (s : SL) (it : BIter) (hd : it.dontBalance = true) :
    (iterateInc n (s, it)).1 = s := by
  induction n generalizing s it with
  | zero => rfl
  | succ n ih =>
    rw [iterateInc]
    obtain ⟨h1, h2⟩ := iterInc_dont s it hd
    have : iterInc s it = ((iterInc s it).1, (iterInc s it).2) := rfl
    rw [this, h1]
    exact ih s (iterInc s it).2 h2

/-- Backward iteration without balancing never touches the container. -/
theorem iterateDec_dont (n : Nat) (s : SL) (it : BIter) (hd : it.dontBalance = true) :
    (iterateDec n (s, it)).1 = s := by
  induction n generalizing s it with
  | zero => rfl
  | succ n ih =>
    rw [iterateDec]
    obtain ⟨h1, h2⟩ := iterDec_dont s it hd
    have : iterDec s it = ((iterDec s it).1, (iterDec s it).2) := rfl
    rw [this, h1]
    exact ih s (iterDec s it).2 h2

/-- A full forward sweep equals `balance()`. -/
theorem sweepForward_eq_balance (s : SL) (hwf : WF s) (hne : s.cols ≠ []) :
    sweepForward s = balance s := by
  have hL := hwf.level_pos hne
  cases hb : s.balanced with
  | true =>
    have hbeg : beginIter s = ⟨some 0, 0, true, StartLocation.BEGINNING⟩ := by
      unfold beginIter
      rw [if_neg (by omega), if_neg (by simp [List.isEmpty_iff, hne])]
      rw [hb]
    unfold sweepForward
    rw [hbeg, iterateInc_dont s.cols.length s _ rfl]
    rw [balance, if_pos hb]
  | false =>
    have hbeg : beginIter s = ⟨some 0, 0, false, StartLocation.BEGINNING⟩ := by
      unfold beginIter
      rw [if_neg (by omega), if_neg (by simp [List.isEmpty_iff, hne])]
      rw [hb]
    have hstart : ({ s with cols :=
        (rebalanceCols s.levelCount s.cols).take 0 ++ s.cols.drop 0 },
        (⟨some 0, 0, false, StartLocation.BEGINNING⟩ : BIter)) =
        (s, (⟨some 0, 0, false, StartLocation.BEGINNING⟩ : BIter)) := by
      simp
    have hfin := iterateInc_balance_aux s hwf hne s.cols.length 0
      (by
        have : s.cols ≠ [] := hne
        rcases Nat.eq_zero_or_pos s.cols.length with h | h
        · exact absurd (List.length_eq_zero.mp h) hne
        · exact h)
      (by omega)
    rw [hstart] at hfin
    unfold sweepForward
    rw [hbeg, hfin]
    rw [balance, if_neg (by rw [hb]; simp), if_neg (by omega)]

/-- A full backward sweep equals `balance()`. -/
theorem sweepBackward_eq_balance (s : SL) (hwf : WF s) (hne : s.cols ≠ []) :
    sweepBackward s = balance s := by
  have hL := hwf.level_pos hne
  have hpos : 0 < s.cols.length := by
    rcases Nat.eq_zero_or_pos s.cols.length with h | h
    · exact absurd (List.length_eq_zero.mp h) hne
    · exact h
  cases hb : s.balanced with
  | true =>
    unfold sweepBackward
    rw [show endIter s = ⟨none, s.count, true, StartLocation.END⟩ by rw [endIter, hb]]
    rw [iterateDec_dont s.cols.length s _ rfl]
    rw [balance, if_pos hb]
  | false =>
    have hlen : (rebalanceCols s.levelCount s.cols).length = s.cols.length := by
      simp only [rebalanceCols]
      exact rebalanceColsAux_length s.levelCount 1 s.cols
    have hcnt := hwf.count_eq
    have hmax : s.cols.length ≤ 2 ^ s.levelCount - 1 := by
      have h1 := (hwf.bounds (by omega)).2
      rw [hwf.count_eq, hwf.countMax_eq] at h1
      simpa [countMaxFor] using h1
    -- the first decrement from the end iterator
    have hfirst : iterDec s (endIter s) =
        (if s.cols.length - 1 = 0 then
          ({ s with cols := rebalanceCols s.levelCount s.cols, balanced := true },
            ⟨some 0, 0, true, StartLocation.END⟩)
        else
          ({ s with cols := s.cols.take (s.cols.length - 1) ++
              (rebalanceCols s.levelCount s.cols).drop (s.cols.length - 1) },
            ⟨some (s.cols.length - 1), s.cols.length - 1, false, StartLocation.END⟩)) := by
      have hsplit : s.cols.take (s.cols.length - 1 + 1) ++
          (rebalanceCols s.levelCount s.cols).drop (s.cols.length - 1 + 1) = s.cols := by
        rw [List.take_of_length_le (by omega)]
        rw [List.drop_eq_nil_of_le (by omega), List.append_nil]
      have hset := set_take_drop_back (rebalanceCols s.levelCount s.cols) s.cols hlen
        (s.cols.length - 1) (by omega)
      rw [hsplit] at hset
      have hdes : calcBalancedLevel s.levelCount (s.cols.length - 1 + 1) ≤ s.levelCount := by
        have hpow := two_pow_pos s.levelCount
        exact calcBalancedLevel_le s.levelCount (s.cols.length - 1 + 1) (by omega) (by omega)
      have hRm : (rebalanceCols s.levelCount s.cols).getD (s.cols.length - 1) default =
          ⟨(s.cols.getD (s.cols.length - 1) default).entry,
            calcBalancedLevel s.levelCount (s.cols.length - 1 + 1)⟩ := by
        simp only [rebalanceCols]
        rw [rebalanceColsAux_getD s.levelCount s.cols 1 (s.cols.length - 1) (by omega)]
        rw [Nat.add_comm 1 (s.cols.length - 1)]
      have hie : s.cols.isEmpty = false := by
        cases hc : s.cols.isEmpty
        · rfl
        · exact absurd (List.isEmpty_iff.mp hc) hne
      unfold iterDec endIter
      dsimp only
      rw [if_neg (by simp [hie])]
      rw [hb, hcnt]
      unfold iterDec.iterDecBalance
      dsimp only
      rw [if_neg (by simp : ¬(false = true))]
      unfold iterColBalance
      dsimp only
      have hnewH : (if calcBalancedLevel s.levelCount (s.cols.length - 1 + 1) ≤
          (s.cols.getD (s.cols.length - 1) default).h
          then calcBalancedLevel s.levelCount (s.cols.length - 1 + 1)
          else min (calcBalancedLevel s.levelCount (s.cols.length - 1 + 1)) s.levelCount) =
          calcBalancedLevel s.levelCount (s.cols.length - 1 + 1) := by
        split_ifs
        · rfl
        · exact Nat.min_eq_left hdes
      rw [hnewH]
      rw [← hRm, hset]
      by_cases hone : s.cols.length - 1 = 0
      · rw [if_pos (by simp [hone])]
        rw [if_pos hone, hone]
        simp [hcnt, hb]
      · rw [if_neg (by simp [hone])]
        rw [if_neg hone]
        simp [hcnt, hb]
    unfold sweepBackward
    rw [show s.cols.length = s.cols.length - 1 + 1 from by omega]
    rw [iterateDec]
    dsimp only
    rw [hfirst]
    by_cases hone : s.cols.length - 1 = 0
    · rw [if_pos hone, hone]
      rw [iterateDec]
      rw [balance, if_neg (by rw [hb]; simp), if_neg (by omega)]
    · rw [if_neg hone]
      rw [iterateDec_balance_aux s hwf hne (s.cols.length - 1) (by omega) (by omega)]
      rw [balance, if_neg (by rw [hb]; simp), if_neg (by omega)]

/-- C7: a balancing cursor that starts at `BEGINNING` and is incremented
past the final element (or starts at `END` and is decremented through the
first element) sets the container's `is_balanced` flag, and such a full
in-order sweep leaves the container in exactly the state `balance()`
produces: same entries in order, element count untouched, and (when the
container was not already flagged balanced) every column at 0-based
position `j` rebuilt to height `1 + v2(j + 1)`. -/
theorem balancing_sweep_correct (s : SL) (hwf : WF s) (hne : s.cols ≠ []) :
    sweepForward s = balance s ∧
    sweepBackward s = balance s ∧
    (sweepForward s).balanced = true ∧
    (sweepBackward s).balanced = true ∧
    (sweepForward s).cols.map Col.entry = s.cols.map Col.entry ∧
    (sweepForward s).count = s.count ∧
    (s.balanced = false → ∀ j, j < (sweepForward s).cols.length →
      ((sweepForward s).cols.getD j default).h = padicValNat 2 (j + 1) + 1) := by
  have hf := sweepForward_eq_balance s hwf hne
  have hk := sweepBackward_eq_balance s hwf hne
  have hbal : (balance s).balanced = true := by
    unfold balance
    split_ifs with h1 h2
    · exact h1
    · rfl
    · rfl
  have hentries : (balance s).cols.map Col.entry = s.cols.map Col.entry := by
    unfold balance
    split_ifs
    · rfl
    · rfl
    · show (rebalanceCols s.levelCount s.cols).map Col.entry = s.cols.map Col.entry
      exact rebalanceColsAux_map_entry s.levelCount 1 s.cols
  have hcnt : (balance s).count = s.count := by
    unfold balance
    split_ifs <;> rfl
  have hheights : s.balanced = false → ∀ j, j < (balance s).cols.length →
      ((balance s).cols.getD j default).h = padicValNat 2 (j + 1) + 1 := by
    intro hb j hj
    have hL := hwf.level_pos hne
    rw [balance, if_neg (by rw [hb]; simp), if_neg (by omega)] at hj ⊢
    show ((rebalanceCols s.levelCount s.cols).getD j default).h = _
    simp only [rebalanceCols] at hj ⊢
    rw [rebalanceColsAux_length] at hj
    rw [rebalanceColsAux_getD s.levelCount s.cols 1 j hj]
    show calcBalancedLevel s.levelCount (1 + j) = _
    rw [Nat.add_comm 1 j, calcBalancedLevel, if_neg (by omega)]
    exact calcBalancedLevelLoop_eq_padic (j + 1) (by omega)
  exact ⟨hf, hk, by rw [hf]; exact hbal, by rw [hk]; exact hbal,
    by rw [hf]; exact hentries, by rw [hf]; exact hcnt, by rw [hf]; exact hheights⟩

/-- Witness for C7 at a concrete unbalanced two-element container. -/
theorem balancing_sweep_correct_witness :
    (WF sampleC ∧ sampleC.cols ≠ []) ∧
    (sweepForward sampleC = balance sampleC ∧
     sweepBackward sampleC = balance sampleC ∧
     (sweepForward sampleC).balanced = true ∧
     (sweepBackward sampleC).balanced = true ∧
     (sweepForward sampleC).cols.map Col.entry = sampleC.cols.map Col.entry ∧
     (sweepForward sampleC).count = sampleC.count ∧
     (sampleC.balanced = false → ∀ j, j < (sweepForward sampleC).cols.length →
       ((sweepForward sampleC).cols.getD j default).h = padicValNat 2 (j + 1) + 1)) :=
  ⟨⟨by decide, by decide⟩, balancing_sweep_correct sampleC (by decide) (by decide)⟩

/-- C6: between public operations — i.e. in every container reachable from
the default-constructed state by inserts, hinted inserts, erases, pops,
clear, balance and balancing-iterator steps — the thresholds satisfy
`count_min = 2^(L-1)` (0 when `L = 0`) and `count_max = 2^L - 1` for the
current level count `L`, and whenever `size > 0` the size lies between
them: every insert and erase path restores the invariant via
`addLevel` / `removeLevel`. -/
theorem count_bounds_invariant (s : SL) (h : Reachable s) :
    s.countMin = countMinFor s.levelCount ∧
    s.countMax = countMaxFor s.levelCount ∧
    (0 < s.count → s.countMin ≤ s.count ∧ s.count ≤ s.countMax) := by
  have hc := countInv_reachable s h
  exact ⟨hc.1, hc.2.1, hc.2.2.2⟩

/-- Witness for C6: the invariant instantiated at the container obtained by
one insert into the empty container. -/
theorem count_bounds_invariant_witness :
    (insert (initSL [1]) false 5 7).1.countMin =
        countMinFor (insert (initSL [1]) false 5 7).1.levelCount ∧
    (insert (initSL [1]) false 5 7).1.countMax =
        countMaxFor (insert (initSL [1]) false 5 7).1.levelCount ∧
    (0 < (insert (initSL [1]) false 5 7).1.count →
      (insert (initSL [1]) false 5 7).1.countMin ≤ (insert (initSL [1]) false 5 7).1.count ∧
      (insert (initSL [1]) false 5 7).1.count ≤ (insert (initSL [1]) false 5 7).1.countMax) :=
  count_bounds_invariant (insert (initSL [1]) false 5 7).1
    (Reachable.stepInsert (initSL [1]) false 5 7 (Reachable.init [1]))

end Skiplist
